import Mathlib

/-!
# Buffer pool of geesefs (`internal/buffer_pool.go`)

A shallow embedding of the memory-admission controller (`BufferPool`), of the
reference-counted buffers it governs (`BufferPointer`, `FileBuffer`), of the
dynamic ceiling computation (`maxMemToUse`, `recomputeBufferLimit`) and of the
stream adapter (`MultiReader`).

Conventions of the embedding:

* `uint64` values are natural numbers; every arithmetic operation of the source
  is written with an explicit reduction modulo `2 ^ 64` (`add64`, `sub64`).
* The mutex and the condition variable carry no data.  What a caller of
  `cond.Wait` observes is modelled by an oracle (`Env.wake`) giving the state of
  the world at wake-up, or `none` when no broadcast ever arrives.
* The injected callback `FreeSomeCleanBuffers` and the memory telemetry
  (`mem.VirtualMemory`, `getCgroupAvailableMem`) are oracles of `Env` as well.
* A Go `panic` is an explicit outcome (`UseResult.oom`, `ReadResult.panic`,
  `none`); a loop of the source is a function with fuel, and running out of
  fuel is an outcome of its own.
* Logging and `debug.FreeOSMemory` have no effect on the modelled state; the
  latter is recorded in the event trace of `Use`.
-/

namespace BufferPoolModel

/-! ## Machine arithmetic -/

/-- Go `a + b` on `uint64`. -/
def add64 (a b : Nat) : Nat := (a + b) % 2 ^ 64

/-- Go `a - b` on `uint64`. -/
def sub64 (a b : Nat) : Nat := (a % 2 ^ 64 + (2 ^ 64 - b % 2 ^ 64)) % 2 ^ 64

/-! ## Data model -/

/-- A byte of a Go `[]byte`. -/
abbrev Byte := Fin 256

/-- The identifier `fuseops.InodeID` (a `uint64`). -/
abbrev InodeID := Nat

/-- The data fields of `type BufferPool struct`; `mu`, `cond` and the callback
`FreeSomeCleanBuffers` are not data (see `Env`). -/
structure BufferPool where
  curDirtyID : Nat
  cur : Nat
  curDirty : Nat
  max : Nat
  requests : Nat
  limit : Nat
deriving DecidableEq

/-- The Go `type BufferPointer struct`: a raw region and its reference count
(a Go `int`, which may go negative). -/
structure BufferPointer where
  buf : List Byte
  refs : Int
deriving DecidableEq

/-- The Go `type FileBuffer struct`.  The field `ptr` is the address of the
`BufferPointer` in the heap of the `World`. -/
structure FileBuffer where
  offset : Nat
  dirtyID : Nat
  flushed : Bool
  buf : List Byte
  ptr : Nat
deriving DecidableEq

/-- Everything the pool and its collaborators can touch: the pool counters, the
heap of `BufferPointer` objects (addressed by position) and the descriptor
collections (`[]FileBuffer`, one per owner). -/
structure World where
  pool : BufferPool
  heap : List BufferPointer
  files : List (List FileBuffer)
deriving DecidableEq

/-- One sample of the memory telemetry read by `maxMemToUse`:
`mem.VirtualMemory()` (`vmErr` when it fails, `available` for `m.Available`)
and `getCgroupAvailableMem()` (`cgAvail`, `cgErr`). -/
structure MemSample where
  vmErr : Bool
  available : Nat
  cgAvail : Nat
  cgErr : Bool
deriving DecidableEq

/-- Constructor `NewBufferPool(limit)`: every counter starts at zero, `max` included. -/
def NewBufferPool (limit : Nat) : BufferPool :=
  { curDirtyID := 0, cur := 0, curDirty := 0, max := 0, requests := 0, limit := limit }

/-! ## Dynamic ceiling -/

/-- The available-memory figure `maxMemToUse` settles on: the cgroup figure
unless the cgroup query failed or reports more than the system-wide figure
(`availableMem < 0` never holds for a `uint64`). -/
def availableMem (t : MemSample) : Nat :=
  if t.cgErr = true ∨ t.cgAvail > t.available then t.available else t.cgAvail

/-- Function `maxMemToUse(usedMem)`; `none` is `panic(err)` when `mem.VirtualMemory`
fails. -/
def maxMemToUse (t : MemSample) (usedMem : Nat) : Option Nat :=
  if t.vmErr = true then none
  else some (add64 (availableMem t) usedMem)

/-- Method `pool.recomputeBufferLimit()`: take the telemetry candidate as the
ceiling and clamp it to a nonzero `limit`. -/
def recomputeBufferLimit (t : MemSample) (pool : BufferPool) : Option BufferPool :=
  match maxMemToUse t pool.cur with
  | none => none
  | some m =>
    let pool1 := { pool with max := m }
    if pool1.limit > 0 ∧ pool1.max > pool1.limit then
      some { pool1 with max := pool1.limit }
    else
      some pool1

/-! ## Release -/

/-- Method `pool.FreeUnlocked(size, dirty)`: the new counters and whether
`pool.cond.Broadcast()` is called. -/
def FreeUnlocked (pool : BufferPool) (size : Nat) (dirty : Bool) : BufferPool × Bool :=
  let notify : Bool := decide (add64 pool.cur size > pool.max)
  let pool1 := { pool with cur := sub64 pool.cur size }
  let pool2 := if dirty = true then { pool1 with curDirty := sub64 pool1.curDirty size } else pool1
  (pool2, notify)

/-- Method `pool.Free(size, dirty)`: `FreeUnlocked` between `mu.Lock()` and
`mu.Unlock()`. -/
def Free (pool : BufferPool) (size : Nat) (dirty : Bool) : BufferPool × Bool :=
  FreeUnlocked pool size dirty

/-! ## Admission -/

/-- What `Use` does that is visible from outside the pool counters. -/
inductive Event where
  | freeOSMemory
  | recompute
  | evict (inode : InodeID) (size : Nat)
  | wait
deriving DecidableEq

/-- The oracles of one call of `Use`, indexed by the iteration of its loop:
`evict k inode size w` is the `k`-th call of `FreeSomeCleanBuffers` (new world
and returned byte count), `wake k w` the world seen when the `k`-th
`cond.Wait()` returns (`none`: it never returns), `mem 0` the telemetry sample
of the throttled recomputation and `mem (k+1)` that of iteration `k`. -/
structure Env where
  evict : Nat → InodeID → Nat → World → World × Nat
  wake : Nat → World → Option World
  mem : Nat → MemSample

/-- How a call of `Use` (or its admission part) ends. -/
inductive UseResult where
  | returned (w : World)
  | oom (w : World)
  | memPanic (w : World)
  | blocked (w : World)
  | outOfFuel (w : World)
deriving DecidableEq

/-- Lines 194-199 of `Use`: count the request and, on every 16th, release
memory to the OS and recompute the ceiling.  `none` is the telemetry panic. -/
def UseStep1 (t : MemSample) (pool : BufferPool) : Option (BufferPool × List Event) :=
  let pool1 := { pool with requests := add64 pool.requests 1 }
  if pool1.requests ≥ 16 then
    match recomputeBufferLimit t pool1 with
    | none => none
    | some pool2 => some ({ pool2 with requests := 0 }, [Event.freeOSMemory, Event.recompute])
  else
    some (pool1, [])

/-- Lines 201-222 of `Use`: the admission loop.  `fuel` bounds the number of
iterations, `k` is the index of the current iteration and `tr` the events so
far.  `UseResult.returned w` here means that the loop was left (by its
condition or by `break`) in world `w`. -/
def UseLoop (env : Env) (inode : InodeID) (size : Nat) :
    Nat → Nat → World → List Event → UseResult × List Event
  | 0, _, w, tr => (UseResult.outOfFuel w, tr)
  | fuel + 1, k, w, tr =>
    if add64 w.pool.cur size > w.pool.max then
      let amount := sub64 (add64 w.pool.cur size) w.pool.max
      let w1 := (env.evict k inode amount w).1
      let tr1 := tr ++ [Event.evict inode amount]
      if add64 w1.pool.cur size > w1.pool.max then
        if w1.pool.cur = 0 then
          let tr2 := tr1 ++ [Event.freeOSMemory, Event.recompute]
          match recomputeBufferLimit (env.mem (k + 1)) w1.pool with
          | none => (UseResult.memPanic w1, tr2)
          | some pool2 =>
            if add64 pool2.cur size > pool2.max then
              (UseResult.oom { w1 with pool := pool2 }, tr2)
            else
              (UseResult.returned { w1 with pool := pool2 }, tr2)
        else
          match env.wake k w1 with
          | none => (UseResult.blocked w1, tr1 ++ [Event.wait])
          | some w2 => UseLoop env inode size fuel (k + 1) w2 (tr1 ++ [Event.wait])
      else
        UseLoop env inode size fuel (k + 1) w1 tr1
    else
      (UseResult.returned w, tr)

/-- Lines 224-227 of `Use`: the commit. -/
def UseCommit (pool : BufferPool) (size : Nat) (dirty : Bool) : BufferPool :=
  let pool1 := { pool with cur := add64 pool.cur size }
  if dirty = true then { pool1 with curDirty := add64 pool1.curDirty size } else pool1

/-- Steps 1 and 2 of `Use`: everything before the commit.  When the telemetry
query of step 1 panics, `pool.requests++` has been executed and neither `max`
nor the counter has been written since: the pool is left with the incremented
counter. -/
def UseAdmit (fuel : Nat) (env : Env) (inode : InodeID) (size : Nat) (w : World) :
    UseResult × List Event :=
  match UseStep1 (env.mem 0) w.pool with
  | none =>
    (UseResult.memPanic { w with pool := { w.pool with requests := add64 w.pool.requests 1 } },
      [Event.freeOSMemory, Event.recompute])
  | some (pool1, tr) => UseLoop env inode size fuel 0 { w with pool := pool1 } tr

/-- Method `pool.Use(inode, size, dirty)`: admission followed by the commit;
any other outcome of the admission is the outcome of the call. -/
def Use (fuel : Nat) (env : Env) (inode : InodeID) (size : Nat) (dirty : Bool) (w : World) :
    UseResult × List Event :=
  match UseAdmit fuel env inode size w with
  | (UseResult.returned w1, tr) =>
    (UseResult.returned { w1 with pool := UseCommit w1.pool size dirty }, tr)
  | other => other

/-! ## Descriptor release -/

/-- What a descriptor release leaves behind: the pool, the heap, the collection
without the released descriptor, the returned byte count and whether the pool
broadcast. -/
structure FreeResult where
  pool : BufferPool
  heap : List BufferPointer
  buffers : List FileBuffer
  freed : Nat
  notify : Bool
deriving DecidableEq

/-- Method `pool.FreeBufferUnlocked(buffers, i)`.  The result is `none` when
the source panics: `i` out of range or `ptr` not pointing to a
`BufferPointer`.  The conversion `uint64(len(buf.ptr.buf))` is the reduction
modulo `2 ^ 64`; `append(buffers[0:i], buffers[i+1:]...)` is `take` followed by
`drop`.  The decrement `refs--` is the integer decrement: a Go `int` wraps only
when decremented at its least value. -/
def FreeBufferUnlocked (pool : BufferPool) (heap : List BufferPointer)
    (buffers : List FileBuffer) (i : Nat) : Option FreeResult :=
  match buffers[i]? with
  | none => none
  | some buf =>
    match heap[buf.ptr]? with
    | none => none
    | some p =>
      let p1 : BufferPointer := { p with refs := p.refs - 1 }
      let heap1 := heap.set buf.ptr p1
      let rest := buffers.take i ++ buffers.drop (i + 1)
      if p1.refs = 0 then
        let freed := p1.buf.length % 2 ^ 64
        let r := FreeUnlocked pool freed (decide (buf.dirtyID ≠ 0))
        some { pool := r.1, heap := heap1, buffers := rest, freed := freed, notify := r.2 }
      else
        some { pool := pool, heap := heap1, buffers := rest, freed := 0, notify := false }

/-- Method `pool.FreeBuffer(buffers, i)`: the same steps, the pool being
updated through `Free` (which takes the lock itself). -/
def FreeBuffer (pool : BufferPool) (heap : List BufferPointer)
    (buffers : List FileBuffer) (i : Nat) : Option FreeResult :=
  match buffers[i]? with
  | none => none
  | some buf =>
    match heap[buf.ptr]? with
    | none => none
    | some p =>
      let p1 : BufferPointer := { p with refs := p.refs - 1 }
      let heap1 := heap.set buf.ptr p1
      let rest := buffers.take i ++ buffers.drop (i + 1)
      if p1.refs = 0 then
        let freed := p1.buf.length % 2 ^ 64
        let r := Free pool freed (decide (buf.dirtyID ≠ 0))
        some { pool := r.1, heap := heap1, buffers := rest, freed := freed, notify := r.2 }
      else
        some { pool := pool, heap := heap1, buffers := rest, freed := 0, notify := false }

/-- One release request: through `FreeBuffer` (`locked`) or through
`FreeBufferUnlocked`, on the collection `file` of the world, at index `idx`. -/
structure Release where
  locked : Bool
  file : Nat
  idx : Nat
deriving DecidableEq

/-- Carry out one release request on the world; the second component is the
value returned by `FreeBuffer` / `FreeBufferUnlocked`. -/
def releaseOne (w : World) (r : Release) : Option (World × Nat) :=
  match w.files[r.file]? with
  | none => none
  | some bs =>
    match (if r.locked = true then FreeBuffer w.pool w.heap bs r.idx
           else FreeBufferUnlocked w.pool w.heap bs r.idx) with
    | none => none
    | some res =>
      some ({ pool := res.pool, heap := res.heap, files := w.files.set r.file res.buffers },
        res.freed)

/-- Carry out release requests one after the other, collecting the returned
values. -/
def releaseAll : World → List Release → Option (World × List Nat)
  | w, [] => some (w, [])
  | w, r :: rs =>
    match releaseOne w r with
    | none => none
    | some (w1, n) =>
      match releaseAll w1 rs with
      | none => none
      | some (w2, ns) => some (w2, n :: ns)

/-- The requests `rs`, carried out in order on the collection `bs` (number `f`
of the world), each release a descriptor that references the buffer at address
`a`. -/
def targets (a f : Nat) : List FileBuffer → List Release → Bool
  | _, [] => true
  | bs, r :: rs =>
    match bs[r.idx]? with
    | none => false
    | some b =>
      decide (r.file = f) && decide (b.ptr = a) &&
        targets a f (bs.take r.idx ++ bs.drop (r.idx + 1)) rs

/-! ## Sequences of calls on the pool -/

/-- An environment keeps a property of the world when neither its callback nor
what happens during a wait can break it. -/
def EnvKeeps (P : World → Prop) (env : Env) : Prop :=
  (∀ k inode size v, P v → P (env.evict k inode size v).1) ∧
  (∀ k v v1, P v → env.wake k v = some v1 → P v1)

/-- A call of the admission and release interface of the pool. -/
inductive Call where
  | use (fuel : Nat) (env : Env) (inode : InodeID) (size : Nat) (dirty : Bool)
  | free (size : Nat) (dirty : Bool)
  | freeUnlocked (size : Nat) (dirty : Bool)

/-- The world after a call that returns; `none` when the call does not return
(fatal condition, or blocked for ever). -/
def runCall (w : World) : Call → Option World
  | Call.use fuel env inode size dirty =>
    match (Use fuel env inode size dirty w).1 with
    | UseResult.returned w1 => some w1
    | _ => none
  | Call.free size dirty => some { w with pool := (Free w.pool size dirty).1 }
  | Call.freeUnlocked size dirty => some { w with pool := (FreeUnlocked w.pool size dirty).1 }

/-- The worlds after each call of a sequence, up to the first call that does
not return. -/
def runCalls : World → List Call → List World
  | _, [] => []
  | w, c :: cs =>
    match runCall w c with
    | none => []
    | some w1 => w1 :: runCalls w1 cs

/-- Every release of the sequence frees no more bytes than are committed when
it is made. -/
def releasesWithinCommitted : World → List Call → Bool
  | _, [] => true
  | w, c :: cs =>
    (match c with
      | Call.use _ _ _ _ _ => true
      | Call.free size _ => decide (size ≤ w.pool.cur)
      | Call.freeUnlocked size _ => decide (size ≤ w.pool.cur)) &&
    (match runCall w c with
      | none => true
      | some w1 => releasesWithinCommitted w1 cs)

/-- The dirty bytes are among the committed bytes, and the committed bytes are
a `uint64`. -/
def DirtyWithin (w : World) : Prop :=
  w.pool.curDirty ≤ w.pool.cur ∧ w.pool.cur < 2 ^ 64

/-- A call that respects the classification of the committed bytes: a dirty
release frees at most the dirty bytes, a clean release at most the clean bytes;
an admission runs in an environment that keeps `DirtyWithin` and its commit
does not wrap around. -/
def callRespects (w : World) : Call → Prop
  | Call.use fuel env inode size _ =>
    EnvKeeps DirtyWithin env ∧
      ∀ q tr, UseAdmit fuel env inode size w = (UseResult.returned q, tr) →
        q.pool.cur + size < 2 ^ 64
  | Call.free size dirty =>
    if dirty = true then size ≤ w.pool.curDirty else size + w.pool.curDirty ≤ w.pool.cur
  | Call.freeUnlocked size dirty =>
    if dirty = true then size ≤ w.pool.curDirty else size + w.pool.curDirty ≤ w.pool.cur

/-- Every call of the sequence respects the classification in the world in
which it is made. -/
def callsRespect : World → List Call → Prop
  | _, [] => True
  | w, c :: cs => callRespects w c ∧ ∀ w1, runCall w c = some w1 → callsRespect w1 cs

/-- A world with an empty pool of the given limit, no buffer, and `nfiles`
empty descriptor collections. -/
def initWorld (limit nfiles : Nat) : World :=
  { pool := NewBufferPool limit, heap := [], files := List.replicate nfiles [] }

/-! ## Buffer lifecycle -/

/-- The sum of the lengths of the buffers of the heap with `refs > 0`. -/
def liveBytes (heap : List BufferPointer) : Nat :=
  ((heap.filter (fun p => decide (0 < p.refs))).map (fun p => p.buf.length)).sum

/-- The number of descriptors, over all collections, that reference the buffer
at address `a`. -/
def refCount (a : Nat) (files : List (List FileBuffer)) : Nat :=
  files.flatten.countP (fun b => decide (b.ptr = a))

/-- The accounting discipline: `cur` is the number of live bytes (as a
`uint64`), the reference count of every buffer is the number of descriptors
that reference it, and every descriptor references a buffer of the heap. -/
def Accounted (w : World) : Prop :=
  w.pool.cur = liveBytes w.heap % 2 ^ 64 ∧
  (∀ a bp, w.heap[a]? = some bp → bp.refs = (refCount a w.files : Int)) ∧
  (∀ b, b ∈ w.files.flatten → b.ptr < w.heap.length)

/-- An operation of the buffer lifecycle. -/
inductive Op where
  | alloc (fuel : Nat) (env : Env) (inode : InodeID) (dirty : Bool) (data : List Byte)
      (f pos : Nat) (d : FileBuffer)
  | split (f i pos : Nat) (d : FileBuffer)
  | free (r : Release)

/-- Modelled from the spec: the allocation of a Shared Buffer, which is done by
the callers of the pool (not in `buffer_pool.go`).  After a successful
admission `Use(inode, len(data), dirty)` the buffer is created with
reference count 1 and one descriptor `d` referencing it is inserted at position
`pos` of collection `f`. -/
def allocBuffer (fuel : Nat) (env : Env) (inode : InodeID) (dirty : Bool) (data : List Byte)
    (f pos : Nat) (d : FileBuffer) (w : World) : Option World :=
  match (Use fuel env inode (data.length % 2 ^ 64) dirty w).1 with
  | UseResult.returned w1 =>
    match w1.files[f]? with
    | none => none
    | some bs =>
      some { pool := w1.pool
             heap := w1.heap ++ [{ buf := data, refs := 1 }]
             files := w1.files.set f
               (bs.take pos ++ { d with ptr := w1.heap.length } :: bs.drop pos) }
  | _ => none

/-- Modelled from the spec: the zero-copy split, which is done by the callers of
the pool (not in `buffer_pool.go`).  A sibling descriptor `d` referencing the
buffer of descriptor `i` of collection `f` is inserted at position `pos`, and
the reference count of the buffer is incremented; the pool is not asked for
admission. -/
def splitBuffer (f i pos : Nat) (d : FileBuffer) (w : World) : Option World :=
  match w.files[f]? with
  | none => none
  | some bs =>
    match bs[i]? with
    | none => none
    | some b =>
      match w.heap[b.ptr]? with
      | none => none
      | some p =>
        some { pool := w.pool
               heap := w.heap.set b.ptr { p with refs := p.refs + 1 }
               files := w.files.set f (bs.take pos ++ { d with ptr := b.ptr } :: bs.drop pos) }

/-- The world after an operation; `none` when it does not complete. -/
def runOp (w : World) : Op → Option World
  | Op.alloc fuel env inode dirty data f pos d => allocBuffer fuel env inode dirty data f pos d w
  | Op.split f i pos d => splitBuffer f i pos d w
  | Op.free r => (releaseOne w r).map Prod.fst

/-- The worlds after each operation of a sequence, up to the first operation
that does not complete. -/
def runOps : World → List Op → List World
  | _, [] => []
  | w, op :: ops =>
    match runOp w op with
    | none => []
    | some w1 => w1 :: runOps w1 ops

/-- The callback and the wake-ups of every admission of the sequence follow the
accounting discipline. -/
def opsDisciplined : List Op → Prop
  | [] => True
  | Op.alloc _ env _ _ _ _ _ _ :: ops => EnvKeeps Accounted env ∧ opsDisciplined ops
  | _ :: ops => opsDisciplined ops

/-! ## Dirty accounting adjustment -/

/-- Go conversion `int64(x)` of a `uint64`: the two's complement reading. -/
def toInt64 (n : Nat) : Int :=
  if n % 2 ^ 64 < 2 ^ 63 then ((n % 2 ^ 64 : Nat) : Int) else ((n % 2 ^ 64 : Nat) : Int) - 2 ^ 64

/-- Go `a + b` on `int64`. -/
def addInt64 (a b : Int) : Int := (a + b + 2 ^ 63) % 2 ^ 64 - 2 ^ 63

/-- Go conversion `uint64(x)` of an `int64`. -/
def toUint64 (z : Int) : Nat := (z % 2 ^ 64).toNat

/-- Method `pool.AddDirty(size)`, between `mu.Lock()` and `mu.Unlock()`:
`pool.curDirty = uint64(int64(pool.curDirty)+size)`.  It is a function of the
pool counters alone: it has no access to the callback or to the condition. -/
def AddDirty (pool : BufferPool) (size : Int) : BufferPool :=
  { pool with curDirty := toUint64 (addInt64 (toInt64 pool.curDirty) size) }

/-! ## The request counter -/

/-- The callback and the wake-ups of an environment leave the request counter
of the pool alone. -/
def EnvKeepsRequests (env : Env) : Prop :=
  ∀ c : Nat, EnvKeeps (fun w => w.pool.requests = c) env

/-- A sequence made of `Use` calls only, each in an environment that leaves the
request counter alone. -/
def usesOnly : List Call → Prop
  | [] => True
  | Call.use _ env _ _ _ :: cs => EnvKeepsRequests env ∧ usesOnly cs
  | _ :: _ => False

/-! ## Stream adapter -/

/-- The Go `type MultiReader struct`.  The indices `idx` and `bufPos` are Go
`int`s that the code only sets to non-negative values; `pos` and `size` are
`int64`s. -/
structure MultiReader where
  buffers : List (List Byte)
  idx : Nat
  pos : Int
  bufPos : Nat
  size : Int
deriving DecidableEq

/-- The sum of the lengths of the slices. -/
def totalLen (bs : List (List Byte)) : Nat := (bs.map List.length).sum

/-- Constructor `NewMultiReader(buffers)`: `size` is accumulated slice by slice
in `int64` arithmetic. -/
def NewMultiReader (buffers : List (List Byte)) : MultiReader :=
  { buffers := buffers
    idx := 0
    pos := 0
    bufPos := 0
    size := buffers.foldl (fun size b => addInt64 size (b.length : Int)) 0 }

/-- How a call of `Read` ends: it returns the reader, the backing array of the
destination, `n` and whether `err` is `io.EOF`; or it panics (slice bounds out
of range); or it is still looping when the fuel runs out. -/
inductive ReadResult where
  | ok (r : MultiReader) (data : List Byte) (n : Nat) (eof : Bool)
  | panic
  | outOfFuel
deriving DecidableEq

/-- The loop of `Read` (lines 95-108).  `data` is the backing array of `buf`
from its first byte (so `data.length` is `cap(buf)`), `remaining` is
`len(buf)` and is never updated by the source, `n` counts the bytes copied.
The expression `buf[n : n+l]` panics unless `n ≤ n + l ≤ cap(buf)`; with
`0 ≤ l ≤ len(cur) - bufPos` the source slice `cur[bufPos : bufPos+l]` is in
range.  `copy` then moves `l` bytes. -/
def ReadLoop : Nat → MultiReader → List Byte → Nat → Nat → ReadResult
  | 0, _, _, _, _ => ReadResult.outOfFuel
  | fuel + 1, r, data, remaining, n =>
    match r.buffers[r.idx]? with
    | none => ReadResult.ok r data n false
    | some cur =>
      let l0 : Int := (cur.length : Int) - (r.bufPos : Int)
      let l : Int := if l0 > (remaining : Int) then (remaining : Int) else l0
      if l < 0 ∨ (n : Int) + l > (data.length : Int) then ReadResult.panic
      else
        let k := l.toNat
        let data1 := data.take n ++ (cur.drop r.bufPos).take k ++ data.drop (n + k)
        let r1 : MultiReader :=
          { r with pos := addInt64 r.pos (k : Int), bufPos := r.bufPos + k }
        let r2 : MultiReader :=
          if r1.bufPos ≥ cur.length then { r1 with idx := r1.idx + 1, bufPos := 0 } else r1
        ReadLoop fuel r2 data1 remaining (n + k)

/-- Method `r.Read(buf)`, with `buf` given by its backing array `data` and its
length `len`. -/
def Read (fuel : Nat) (r : MultiReader) (data : List Byte) (len : Nat) : ReadResult :=
  if r.idx ≥ r.buffers.length then ReadResult.ok r data 0 true
  else ReadLoop fuel r data len 0

/-- How a call of `Seek` ends: it returns the reader and the new offset (the
error is always `nil`); or it panics (index out of range); or it is still
looping when the fuel runs out. -/
inductive SeekResult where
  | ok (r : MultiReader) (newOffset : Int)
  | panic
  | outOfFuel
deriving DecidableEq

/-- The loop of `Seek` (lines 127-136). -/
def SeekLoop : Nat → MultiReader → Int → SeekResult
  | 0, _, _ => SeekResult.outOfFuel
  | fuel + 1, r, offset =>
    if r.pos < offset then
      match r.buffers[r.idx]? with
      | none => SeekResult.panic
      | some cur =>
        let endPos := addInt64 r.pos (cur.length : Int)
        if endPos ≤ offset then
          SeekLoop fuel { r with pos := endPos, idx := r.idx + 1 } offset
        else
          SeekLoop fuel
            { r with bufPos := (addInt64 offset (-r.pos)).toNat, pos := offset } offset
    else
      SeekResult.ok r r.pos

/-- Method `r.Seek(offset, whence)`, with `io.SeekStart = 0`,
`io.SeekCurrent = 1` and `io.SeekEnd = 2`; any other `whence` is treated as
`io.SeekStart`. -/
def Seek (fuel : Nat) (r : MultiReader) (offset : Int) (whence : Int) : SeekResult :=
  let offset1 :=
    if whence = 2 then addInt64 offset r.size
    else if whence = 1 then addInt64 offset r.pos
    else offset
  let offset2 := if offset1 > r.size then r.size else offset1
  let offset3 := if offset2 < 0 then 0 else offset2
  SeekLoop fuel { r with idx := 0, pos := 0, bufPos := 0 } offset3

/-- Method `r.Len()`. -/
def MultiReader.Len (r : MultiReader) : Int := r.size

/-- The world a call of `Use` leaves behind, whatever its outcome: the pool
outlives a panic that is recovered, and a parked call has left the counters as
they were when it went to wait. -/
def UseResult.world : UseResult → World
  | UseResult.returned w => w
  | UseResult.oom w => w
  | UseResult.memPanic w => w
  | UseResult.blocked w => w
  | UseResult.outOfFuel w => w

/-- The world after a call, whether it returned or not. -/
def afterCall (w : World) : Call → World
  | Call.use fuel env inode size dirty => (Use fuel env inode size dirty w).1.world
  | Call.free size dirty => { w with pool := (Free w.pool size dirty).1 }
  | Call.freeUnlocked size dirty => { w with pool := (FreeUnlocked w.pool size dirty).1 }

/-- The worlds after each call of a sequence, every call counted whatever its
outcome. -/
def runAll : World → List Call → List World
  | _, [] => []
  | w, c :: cs => afterCall w c :: runAll (afterCall w c) cs

/-- The telemetry query of step 1 (`mem.VirtualMemory`) succeeds in every `Use`
of the sequence. -/
def step1Succeeds : List Call → Prop
  | [] => True
  | Call.use _ env _ _ _ :: cs => (env.mem 0).vmErr = false ∧ step1Succeeds cs
  | _ :: cs => step1Succeeds cs

/-! ## Concrete scenarios -/

/-- The pool of the scenario of the specification after request A: limit 100,
ceiling 100, 60 dirty bytes committed. -/
def scenarioPool : BufferPool :=
  { curDirtyID := 1, cur := 60, curDirty := 60, max := 100, requests := 1, limit := 100 }

/-- The world of the scenario: one buffer of 60 bytes held by one dirty
descriptor of owner A. -/
def scenarioWorld : World :=
  { pool := scenarioPool
    heap := [{ buf := List.replicate 60 0, refs := 1 }]
    files := [[{ offset := 0, dirtyID := 1, flushed := false, buf := List.replicate 60 0, ptr := 0 }]] }

/-- A telemetry sample reporting 1000 available bytes and no usable cgroup
figure. -/
def sample1000 : MemSample :=
  { vmErr := false, available := 1000, cgAvail := 0, cgErr := true }

/-- An environment whose callback reclaims nothing and in which no broadcast
ever arrives. -/
def envIdle : Env :=
  { evict := fun _ _ _ w => (w, 0)
    wake := fun _ _ => none
    mem := fun _ => sample1000 }

/-- An environment whose callback reclaims nothing and in which another thread
releases 20 dirty bytes while the caller waits. -/
def envRelease20 : Env :=
  { evict := fun _ _ _ w => (w, 0)
    wake := fun _ w => some { w with pool := (Free w.pool 20 true).1 }
    mem := fun _ => sample1000 }

/-- A world in which a buffer of 40 bytes (address 0, `refs = 3`) is shared by
three descriptors of collection 0, next to a buffer of 60 bytes held by one
descriptor. -/
def sharedWorld : World :=
  { pool := { scenarioPool with cur := 100, curDirty := 40 }
    heap := [{ buf := List.replicate 40 0, refs := 3 }, { buf := List.replicate 60 0, refs := 1 }]
    files := [[{ offset := 0, dirtyID := 5, flushed := false, buf := List.replicate 10 0, ptr := 0 },
               { offset := 100, dirtyID := 0, flushed := false, buf := List.replicate 60 0, ptr := 1 },
               { offset := 10, dirtyID := 6, flushed := false, buf := List.replicate 10 0, ptr := 0 },
               { offset := 20, dirtyID := 7, flushed := true, buf := List.replicate 20 0, ptr := 0 }]] }

/-- Three releases of `sharedWorld`, in mixed order and through both variants,
that drop the three descriptors of the buffer at address 0. -/
def sharedReleases : List Release :=
  [{ locked := true, file := 0, idx := 2 }, { locked := false, file := 0, idx := 0 },
   { locked := true, file := 0, idx := 1 }]

/-- An admission of 10 clean bytes followed by a release of 10 bytes flagged
dirty. -/
def mixedCalls : List Call :=
  [Call.use 1 envIdle 1 10 false, Call.free 10 true]

/-- The calls of the scenario of the specification with the release made
between the two admissions: 60 dirty bytes admitted, 20 dirty bytes released,
50 clean bytes admitted. -/
def scenarioCalls : List Call :=
  [Call.use 1 envIdle 1 60 true, Call.free 20 true, Call.use 1 envIdle 2 50 false]

/-- An environment whose callback drops the first descriptor of collection 0
through `FreeBufferUnlocked` (when there is one) and in which no broadcast ever
arrives. -/
def envEvictFirst : Env :=
  { evict := fun _ _ _ w =>
      match releaseOne w { locked := false, file := 0, idx := 0 } with
      | some (w1, n) => (w1, n)
      | none => (w, 0)
    wake := fun _ _ => none
    mem := fun _ => sample1000 }

/-- A descriptor with the given file offset and dirty generation; its `ptr` is
set by the operation that inserts it. -/
def descriptor (offset dirtyID : Nat) : FileBuffer :=
  { offset := offset, dirtyID := dirtyID, flushed := false, buf := [], ptr := 0 }

/-- A lifecycle on a pool of limit 100: a buffer of 60 dirty bytes is allocated
and split, a buffer of 30 clean bytes is allocated, both descriptors of the
first buffer are released, and a request of 80 bytes is admitted after the
callback evicted the clean buffer. -/
def lifecycleOps : List Op :=
  [Op.alloc 1 envIdle 1 true (List.replicate 60 0) 0 0 (descriptor 0 1),
   Op.split 0 0 1 (descriptor 30 2),
   Op.alloc 1 envIdle 1 false (List.replicate 30 0) 0 2 (descriptor 60 0),
   Op.free { locked := true, file := 0, idx := 0 },
   Op.free { locked := false, file := 0, idx := 0 },
   Op.alloc 2 envEvictFirst 2 true (List.replicate 80 0) 0 0 (descriptor 0 3)]

/-- A pool with 100 bytes committed, 40 of them dirty, and its two buffers: 40
bytes held by one dirty descriptor and 60 bytes held by one clean descriptor. -/
def lastRefPool : BufferPool :=
  { scenarioPool with cur := 100, curDirty := 40 }

/-- The heap of `lastRefPool`. -/
def lastRefHeap : List BufferPointer :=
  [{ buf := List.replicate 40 0, refs := 1 }, { buf := List.replicate 60 0, refs := 1 }]

/-- The descriptors of `lastRefPool`. -/
def lastRefBuffers : List FileBuffer :=
  [{ offset := 0, dirtyID := 5, flushed := false, buf := List.replicate 40 0, ptr := 0 },
   { offset := 40, dirtyID := 0, flushed := false, buf := List.replicate 60 0, ptr := 1 }]

/-- Seventeen admissions of one clean byte each. -/
def seventeenUses : List Call :=
  List.replicate 17 (Call.use 1 envIdle 1 1 false)

/-- The slices `["ab", "cde", "f"]` of the specification. -/
def abcdef : List (List Byte) := [[97, 98], [99, 100, 101], [102]]

/-- The slices `["ab", ""]`: the last slice is empty. -/
def abEmpty : List (List Byte) := [[97, 98], []]

/-- An environment like `envIdle` whose telemetry query fails. -/
def envNoTelemetry : Env :=
  { evict := fun _ _ _ w => (w, 0)
    wake := fun _ _ => none
    mem := fun _ => { vmErr := true, available := 0, cgAvail := 0, cgErr := true } }

/-- Seventeen admissions of one clean byte each, the telemetry query failing in
the sixteenth. -/
def failingSixteenth : List Call :=
  List.replicate 15 (Call.use 1 envIdle 1 1 false) ++
    [Call.use 1 envNoTelemetry 1 1 false, Call.use 1 envIdle 1 1 false]

/-! ## Basic facts about the machine arithmetic -/

theorem add64_of_lt {a b : Nat} (h : a + b < 2 ^ 64) : add64 a b = a + b := by
  unfold add64
  exact Nat.mod_eq_of_lt h

theorem sub64_of_le {a b : Nat} (hb : b ≤ a) (ha : a < 2 ^ 64) : sub64 a b = a - b := by
  unfold sub64
  have hb2 : b < 2 ^ 64 := lt_of_le_of_lt hb ha
  rw [Nat.mod_eq_of_lt ha, Nat.mod_eq_of_lt hb2]
  have : a + (2 ^ 64 - b) = (a - b) + 2 ^ 64 := by omega
  rw [this, Nat.add_mod_right]
  exact Nat.mod_eq_of_lt (by omega)

theorem add64_lt (a b : Nat) : add64 a b < 2 ^ 64 := by
  unfold add64
  exact Nat.mod_lt _ (by norm_num)

theorem sub64_lt (a b : Nat) : sub64 a b < 2 ^ 64 := by
  unfold sub64
  exact Nat.mod_lt _ (by norm_num)

/-! ## The ceiling -/

theorem recomputeBufferLimit_some {t : MemSample} {pool pool2 : BufferPool}
    (h : recomputeBufferLimit t pool = some pool2) :
    pool2.cur = pool.cur ∧ pool2.curDirty = pool.curDirty ∧ pool2.limit = pool.limit ∧
      pool2.curDirtyID = pool.curDirtyID ∧ pool2.requests = pool.requests ∧
      (0 < pool.limit → pool2.max ≤ pool.limit) := by
  unfold recomputeBufferLimit at h
  cases hm : maxMemToUse t pool.cur with
  | none => simp [hm] at h
  | some m =>
    simp only [hm] at h
    split_ifs at h with hc
    · cases h
      simp
    · cases h
      simp only [true_and]
      intro hl
      simp only [not_and, not_lt] at hc
      exact hc hl

/-! ## Release and wake-up -/

/-- Claim C1, evaluated on the scenario of the specification (ceiling 100, 60
bytes committed, a request of 50 bytes waiting, 20 dirty bytes released): the
request is blocked before the release and fits after it, yet `FreeUnlocked`
decides not to broadcast (`60 + 20 > 100` is false), and a `Use` that is never
woken stays blocked. -/
theorem FreeUnlocked_scenario_no_broadcast :
    0 < scenarioPool.cur ∧
    add64 scenarioPool.cur 50 > scenarioPool.max ∧
    20 ≤ scenarioPool.cur ∧
    add64 (FreeUnlocked scenarioPool 20 true).1.cur 50 ≤ (FreeUnlocked scenarioPool 20 true).1.max ∧
    (FreeUnlocked scenarioPool 20 true).2 = false ∧
    (Free scenarioPool 20 true).2 = false ∧
    (Use 8 envIdle 2 50 false scenarioWorld).1 =
      UseResult.blocked { scenarioWorld with pool := { scenarioPool with requests := 2 } } := by
  decide

theorem UseLoop_returned (env : Env) (inode : InodeID) (size : Nat) :
    ∀ (fuel k : Nat) (w : World) (tr : List Event) (w1 : World) (tr1 : List Event),
      UseLoop env inode size fuel k w tr = (UseResult.returned w1, tr1) →
      add64 w1.pool.cur size ≤ w1.pool.max := by
  intro fuel
  induction fuel with
  | zero =>
    intro k w tr w1 tr1 h
    simp [UseLoop] at h
  | succ fuel ih =>
    intro k w tr w1 tr1 h
    unfold UseLoop at h
    split at h
    · simp only at h
      split at h
      · split at h
        · -- zero-in-flight path
          split at h
          · simp at h
          · split at h
            · simp at h
            · rename_i h4
              simp only [Prod.mk.injEq, UseResult.returned.injEq] at h
              rw [← h.1]
              exact not_lt.mp h4
        · -- wait
          split at h
          · simp at h
          · exact ih _ _ _ _ _ h
      · exact ih _ _ _ _ _ h
    · rename_i h1
      simp only [Prod.mk.injEq, UseResult.returned.injEq] at h
      rw [← h.1]
      exact not_lt.mp h1

theorem Use_returned_iff (fuel : Nat) (env : Env) (inode : InodeID) (size : Nat) (dirty : Bool)
    (w w1 : World) (tr : List Event) :
    Use fuel env inode size dirty w = (UseResult.returned w1, tr) ↔
      ∃ q, UseAdmit fuel env inode size w = (UseResult.returned q, tr) ∧
        w1 = { q with pool := UseCommit q.pool size dirty } := by
  unfold Use
  constructor
  · intro h
    split at h
    · rename_i q tr0 hq
      simp only [Prod.mk.injEq, UseResult.returned.injEq] at h
      refine ⟨q, ?_, h.1.symm⟩
      rw [hq, h.2]
    · rename_i other hne
      exfalso
      exact hne w1 tr h
  · rintro ⟨q, hq, rfl⟩
    rw [hq]

theorem UseAdmit_returned (fuel : Nat) (env : Env) (inode : InodeID) (size : Nat)
    (w q : World) (tr : List Event)
    (h : UseAdmit fuel env inode size w = (UseResult.returned q, tr)) :
    add64 q.pool.cur size ≤ q.pool.max := by
  unfold UseAdmit at h
  split at h
  · simp at h
  · exact UseLoop_returned env inode size _ _ _ _ _ _ h

theorem UseCommit_fields (pool : BufferPool) (size : Nat) (dirty : Bool) :
    (UseCommit pool size dirty).cur = add64 pool.cur size ∧
    (UseCommit pool size dirty).curDirty =
      (if dirty = true then add64 pool.curDirty size else pool.curDirty) ∧
    (UseCommit pool size dirty).limit = pool.limit ∧
    (UseCommit pool size dirty).curDirtyID = pool.curDirtyID ∧
    (UseCommit pool size dirty).max = pool.max ∧
    (UseCommit pool size dirty).requests = pool.requests := by
  unfold UseCommit
  cases dirty <;> simp

/-- Claim C2: whatever the initial world, the eviction callback, the telemetry
and the wake-ups, when `Use` returns the committed bytes are at most the
ceiling: the commit adds `size` to a `cur` for which `cur + size ≤ max` was
just checked (in the same `uint64` arithmetic, so even a wrapped sum obeys the
bound). -/
theorem Use_returned_cur_le_max (fuel : Nat) (env : Env) (inode : InodeID) (size : Nat)
    (dirty : Bool) (w w1 : World) (tr : List Event)
    (h : Use fuel env inode size dirty w = (UseResult.returned w1, tr)) :
    w1.pool.cur ≤ w1.pool.max ∧
      ∃ q, UseAdmit fuel env inode size w = (UseResult.returned q, tr) ∧
        add64 q.pool.cur size ≤ q.pool.max ∧
        w1.pool.cur = add64 q.pool.cur size ∧ w1.pool.max = q.pool.max := by
  obtain ⟨q, hq, rfl⟩ := (Use_returned_iff fuel env inode size dirty w w1 tr).mp h
  have hle := UseAdmit_returned fuel env inode size w q tr hq
  have hf := UseCommit_fields q.pool size dirty
  refine ⟨?_, q, hq, hle, hf.1, hf.2.2.2.2.1⟩
  show (UseCommit q.pool size dirty).cur ≤ (UseCommit q.pool size dirty).max
  rw [hf.1, hf.2.2.2.2.1]
  exact hle

/-- Witness of C2: request B of the scenario (50 clean bytes against 60
committed, ceiling 100) returns after another thread released 20 bytes. -/
theorem Use_returned_cur_le_max_witness :
    Use 8 envRelease20 2 50 false scenarioWorld =
        (UseResult.returned
          { scenarioWorld with
            pool := { scenarioPool with cur := 90, curDirty := 40, requests := 2 } },
          [Event.evict 2 10, Event.wait]) ∧
      (90 : Nat) ≤ 100 :=
  ⟨by decide,
    (Use_returned_cur_le_max 8 envRelease20 2 50 false scenarioWorld
      { scenarioWorld with
        pool := { scenarioPool with cur := 90, curDirty := 40, requests := 2 } }
      [Event.evict 2 10, Event.wait] (by decide)).1⟩

/-- Claim C3: when `Use` returns, the world it returns is the world `q` in which
the admission ended with exactly the commit applied: `size` added to `cur`
(`uint64` addition, the plain sum when it is representable), `size` added to
`curDirty` when `dirty` and nothing otherwise, every other field unchanged.
When the request fits on entry and no throttled recomputation is due, `Use`
returns with an empty event trace (no callback, no wait) and the counters of
the entry state plus `size`. -/
theorem Use_commit_effect (fuel : Nat) (env : Env) (inode : InodeID) (size : Nat)
    (dirty : Bool) (w : World) :
    (∀ w1 tr, Use fuel env inode size dirty w = (UseResult.returned w1, tr) →
      ∃ q, UseAdmit fuel env inode size w = (UseResult.returned q, tr) ∧
        w1.pool.cur = add64 q.pool.cur size ∧
        (q.pool.cur + size < 2 ^ 64 → w1.pool.cur = q.pool.cur + size) ∧
        w1.pool.curDirty = (if dirty = true then add64 q.pool.curDirty size else q.pool.curDirty) ∧
        (dirty = true → q.pool.curDirty + size < 2 ^ 64 →
          w1.pool.curDirty = q.pool.curDirty + size) ∧
        w1.pool.limit = q.pool.limit ∧ w1.pool.curDirtyID = q.pool.curDirtyID ∧
        w1.pool.max = q.pool.max ∧ w1.pool.requests = q.pool.requests ∧
        w1.heap = q.heap ∧ w1.files = q.files) ∧
    (0 < fuel → add64 w.pool.requests 1 < 16 → w.pool.max < 2 ^ 64 →
      w.pool.cur + size ≤ w.pool.max →
      Use fuel env inode size dirty w =
        (UseResult.returned
          { w with pool :=
            { w.pool with
              requests := add64 w.pool.requests 1
              cur := w.pool.cur + size
              curDirty := if dirty = true then add64 w.pool.curDirty size else w.pool.curDirty } },
          []) ∧
        (w.pool.curDirty + size < 2 ^ 64 → add64 w.pool.curDirty size = w.pool.curDirty + size)) := by
  constructor
  · intro w1 tr h
    obtain ⟨q, hq, rfl⟩ := (Use_returned_iff fuel env inode size dirty w w1 tr).mp h
    have hf := UseCommit_fields q.pool size dirty
    refine ⟨q, hq, hf.1, ?_, hf.2.1, ?_, hf.2.2.1, hf.2.2.2.1, hf.2.2.2.2.1, hf.2.2.2.2.2, rfl, rfl⟩
    · intro hno
      show (UseCommit q.pool size dirty).cur = q.pool.cur + size
      rw [hf.1, add64_of_lt hno]
    · intro hd hno
      show (UseCommit q.pool size dirty).curDirty = q.pool.curDirty + size
      rw [hf.2.1, if_pos hd, add64_of_lt hno]
  · intro hfuel hreq hmax hfit
    refine ⟨?_, fun hno => add64_of_lt hno⟩
    obtain ⟨f, rfl⟩ : ∃ f, fuel = f + 1 := ⟨fuel - 1, by omega⟩
    have hadd : add64 w.pool.cur size = w.pool.cur + size := add64_of_lt (by omega)
    have hstep : UseStep1 (env.mem 0) w.pool =
        some ({ w.pool with requests := add64 w.pool.requests 1 }, []) := by
      unfold UseStep1
      simp only
      rw [if_neg (by omega)]
    have hadm : UseAdmit (f + 1) env inode size w =
        (UseResult.returned { w with pool := { w.pool with requests := add64 w.pool.requests 1 } },
          []) := by
      unfold UseAdmit
      rw [hstep]
      simp only
      unfold UseLoop
      rw [if_neg]
      simp only [hadd]
      omega
    unfold Use
    rw [hadm]
    simp only [UseCommit, hadd]
    cases dirty <;> simp

/-- Witness of C3: request A of the scenario (60 dirty bytes on a pool with
ceiling 100 and nothing committed) fits on entry; request B (50 clean bytes
against 60 committed) returns from an admission that ended with 40 bytes
committed. -/
theorem Use_commit_effect_witness :
    Use 1 envIdle 1 60 true
        { scenarioWorld with pool := { (NewBufferPool 100) with max := 100 } } =
      (UseResult.returned
        { scenarioWorld with
          pool := { (NewBufferPool 100) with max := 100, requests := 1, cur := 60, curDirty := 60 } },
        []) ∧
    ∃ q, UseAdmit 8 envRelease20 2 50 scenarioWorld =
        (UseResult.returned q, [Event.evict 2 10, Event.wait]) ∧
      (90 : Nat) = add64 q.pool.cur 50 ∧ (40 : Nat) = q.pool.curDirty :=
  ⟨((Use_commit_effect 1 envIdle 1 60 true
      { scenarioWorld with pool := { (NewBufferPool 100) with max := 100 } }).2
    (by decide) (by decide) (by decide) (by decide)).1,
   match (Use_commit_effect 8 envRelease20 2 50 false scenarioWorld).1
      { scenarioWorld with
        pool := { scenarioPool with cur := 90, curDirty := 40, requests := 2 } }
      [Event.evict 2 10, Event.wait] (by decide) with
   | ⟨q, hq, hcur, _, hdirty, _⟩ => ⟨q, hq, hcur, hdirty⟩⟩

theorem recomputeBufferLimit_ok (t : MemSample) (pool : BufferPool) (h : t.vmErr = false) :
    ∃ pool2, recomputeBufferLimit t pool = some pool2 := by
  unfold recomputeBufferLimit maxMemToUse
  rw [if_neg (by simp [h])]
  simp only
  split_ifs
  · exact ⟨_, rfl⟩
  · exact ⟨_, rfl⟩

theorem UseStep1_ok (t : MemSample) (pool : BufferPool) (h : t.vmErr = false) :
    ∃ pool1 tr, UseStep1 t pool = some (pool1, tr) ∧ Event.wait ∉ tr ∧
      pool1.cur = pool.cur ∧ pool1.curDirty = pool.curDirty ∧ pool1.limit = pool.limit ∧
      (0 < pool.limit → pool.max ≤ pool.limit → pool1.max ≤ pool.limit) := by
  unfold UseStep1
  simp only
  split_ifs with h16
  · obtain ⟨pool2, h2⟩ := recomputeBufferLimit_ok t { pool with requests := add64 pool.requests 1 } h
    have hf := recomputeBufferLimit_some h2
    rw [h2]
    refine ⟨_, _, rfl, by simp, hf.1, hf.2.1, hf.2.2.1, fun hl _ => hf.2.2.2.2.2 hl⟩
  · exact ⟨_, _, rfl, by simp, rfl, rfl, rfl, fun _ hm => hm⟩

/-- Claim C4: with a configured limit `L ≥ 1`, nothing committed, a callback
that reclaims nothing and any telemetry figures, a request of `L + 1` bytes
ends in the fatal OOM: the call neither waits nor commits.  The ceiling of the
pool is at most its limit, as it is in every pool built by `NewBufferPool`
(where it is 0) and after every recomputation. -/
theorem Use_oom_fast_path (fuel : Nat) (env : Env) (inode : InodeID) (L : Nat) (dirty : Bool)
    (w : World) (hL : 1 ≤ L) (hrep : L + 1 < 2 ^ 64) (hfuel : 0 < fuel)
    (hevict : ∀ k i a v, env.evict k i a v = (v, 0))
    (hmem : ∀ k, (env.mem k).vmErr = false)
    (hcur : w.pool.cur = 0) (hlimit : w.pool.limit = L) (hmax : w.pool.max ≤ L) :
    ∃ w1 tr, Use fuel env inode (L + 1) dirty w = (UseResult.oom w1, tr) ∧
      Event.wait ∉ tr ∧ w1.pool.cur = 0 ∧ w1.pool.curDirty = w.pool.curDirty ∧
      w1.heap = w.heap ∧ w1.files = w.files := by
  obtain ⟨f, rfl⟩ : ∃ f, fuel = f + 1 := ⟨fuel - 1, by omega⟩
  obtain ⟨pool1, tr0, h1, htr0, h1cur, h1dirty, h1limit, h1max⟩ :=
    UseStep1_ok (env.mem 0) w.pool (hmem 0)
  rw [hcur] at h1cur
  rw [hlimit] at h1limit h1max
  have h1max := h1max (by omega) hmax
  obtain ⟨pool2, h2⟩ := recomputeBufferLimit_ok (env.mem (0 + 1)) pool1 (hmem _)
  have hf := recomputeBufferLimit_some h2
  have h2max : pool2.max ≤ L := by
    have := hf.2.2.2.2.2
    rw [h1limit] at this
    exact this (by omega)
  have hsum : add64 0 (L + 1) = L + 1 := by
    rw [add64_of_lt (by omega)]
    omega
  have hloop : UseLoop env inode (L + 1) (f + 1) 0 { w with pool := pool1 } tr0 =
      (UseResult.oom { w with pool := pool2 },
        tr0 ++ [Event.evict inode (sub64 (L + 1) pool1.max)] ++
          [Event.freeOSMemory, Event.recompute]) := by
    unfold UseLoop
    simp only [hevict, h1cur, hsum, h2]
    rw [if_pos (by omega), if_pos (by omega)]
    simp only [if_true, hf.1, h1cur, hsum]
    rw [if_pos (by omega)]
  refine ⟨{ w with pool := pool2 },
    tr0 ++ [Event.evict inode (sub64 (L + 1) pool1.max)] ++
      [Event.freeOSMemory, Event.recompute], ?_, ?_, ?_, ?_, rfl, rfl⟩
  · unfold Use UseAdmit
    rw [h1]
    simp only [hloop]
  · simp [htr0]
  · show pool2.cur = 0
    rw [hf.1, h1cur]
  · show pool2.curDirty = w.pool.curDirty
    rw [hf.2.1, h1dirty]

/-- Witness of C4: a fresh pool with limit 100 and a request of 101 bytes. -/
theorem Use_oom_fast_path_witness :
    ∃ w1 tr, Use 1 envIdle 7 (100 + 1) false
        { pool := NewBufferPool 100, heap := [], files := [] } = (UseResult.oom w1, tr) ∧
      Event.wait ∉ tr ∧ w1.pool.cur = 0 ∧ w1.pool.curDirty = 0 ∧
      w1.heap = [] ∧ w1.files = [] :=
  Use_oom_fast_path 1 envIdle 7 100 false
    { pool := NewBufferPool 100, heap := [], files := [] }
    (by decide) (by decide) (by decide) (fun _ _ _ _ => rfl) (fun _ => rfl) rfl rfl (by decide)

/-! ## The ceiling: clamp and cgroup fallback -/

/-- Claim C9: with the telemetry figure `available` that `maxMemToUse` settles
on, `recomputeBufferLimit` sets `max` to `min (available + cur) limit` when
`limit > 0` and to `available + cur` when `limit = 0` (the sum being
representable), and touches no other field.  With `limit > 0` the new `max`
never exceeds `limit`, and it is `limit` itself whenever `available ≥ limit`,
whatever `cur` is. -/
theorem recomputeBufferLimit_clamp (t : MemSample) (pool : BufferPool)
    (hvm : t.vmErr = false) (hno : availableMem t + pool.cur < 2 ^ 64) :
    ∃ pool2, recomputeBufferLimit t pool = some pool2 ∧
      pool2.max = (if pool.limit > 0 then min (availableMem t + pool.cur) pool.limit
        else availableMem t + pool.cur) ∧
      (pool.limit > 0 → pool2.max ≤ pool.limit) ∧
      (pool.limit > 0 → pool.limit ≤ availableMem t → pool2.max = pool.limit) ∧
      pool2 = { pool with max := pool2.max } := by
  have hm : maxMemToUse t pool.cur = some (availableMem t + pool.cur) := by
    unfold maxMemToUse
    rw [if_neg (by simp [hvm]), add64_of_lt hno]
  unfold recomputeBufferLimit
  rw [hm]
  simp only
  by_cases hl : pool.limit > 0
  · by_cases hgt : availableMem t + pool.cur > pool.limit
    · rw [if_pos ⟨hl, hgt⟩]
      refine ⟨_, rfl, ?_, fun _ => le_refl _, fun _ _ => rfl, rfl⟩
      rw [if_pos hl]
      exact (Nat.min_eq_right (le_of_lt hgt)).symm
    · rw [if_neg (fun h => hgt h.2)]
      refine ⟨_, rfl, ?_, fun _ => not_lt.mp hgt, ?_, rfl⟩
      · rw [if_pos hl]
        exact (Nat.min_eq_left (not_lt.mp hgt)).symm
      · intro _ hle
        show availableMem t + pool.cur = pool.limit
        have := not_lt.mp hgt
        omega
  · rw [if_neg (fun h => hl h.1)]
    refine ⟨_, rfl, ?_, fun h => absurd h hl, fun h => absurd h hl, rfl⟩
    rw [if_neg hl]

/-- Witness of C9: 1000 bytes available and a limit of 500 give a ceiling of
500 while 60 bytes are committed. -/
theorem recomputeBufferLimit_clamp_witness :
    ∃ pool2, recomputeBufferLimit sample1000 { scenarioPool with limit := 500 } = some pool2 ∧
      pool2.max = (if 500 > 0 then min (availableMem sample1000 + 60) 500
        else availableMem sample1000 + 60) ∧
      (500 > 0 → pool2.max ≤ 500) ∧
      (500 > 0 → 500 ≤ availableMem sample1000 → pool2.max = 500) ∧
      pool2 = { { scenarioPool with limit := 500 } with max := pool2.max } :=
  recomputeBufferLimit_clamp sample1000 { scenarioPool with limit := 500 } rfl (by decide)

/-- Claim C10: `maxMemToUse` adds `usedMem` to the cgroup figure when the
cgroup query succeeded with a figure at most the system-wide one, and to the
system-wide figure in every other case; the figure it uses never exceeds the
system-wide one. -/
theorem maxMemToUse_cgroup_fallback (t : MemSample) (usedMem : Nat) (hvm : t.vmErr = false) :
    (t.cgErr = false ∧ t.cgAvail ≤ t.available →
      maxMemToUse t usedMem = some (add64 t.cgAvail usedMem)) ∧
    (t.cgErr = true ∨ t.cgAvail > t.available →
      maxMemToUse t usedMem = some (add64 t.available usedMem)) ∧
    (∃ a, a ≤ t.available ∧ maxMemToUse t usedMem = some (add64 a usedMem) ∧
      (a + usedMem < 2 ^ 64 → maxMemToUse t usedMem = some (a + usedMem))) := by
  have hm : maxMemToUse t usedMem = some (add64 (availableMem t) usedMem) := by
    unfold maxMemToUse
    rw [if_neg (by simp [hvm])]
  refine ⟨?_, ?_, availableMem t, ?_, hm, ?_⟩
  · rintro ⟨he, hle⟩
    rw [hm]
    unfold availableMem
    rw [if_neg]
    rintro (h | h)
    · rw [he] at h
      cases h
    · omega
  · intro h
    rw [hm]
    unfold availableMem
    rw [if_pos h]
  · unfold availableMem
    split_ifs with h
    · exact le_refl _
    · simp only [not_or, not_lt] at h
      exact h.2
  · intro hno
    rw [hm, add64_of_lt hno]

/-- Witness of C10: a cgroup figure of 300 under a system-wide figure of 1000 is
used; a failed cgroup query falls back to 1000. -/
theorem maxMemToUse_cgroup_fallback_witness :
    maxMemToUse { vmErr := false, available := 1000, cgAvail := 300, cgErr := false } 60 =
        some (add64 300 60) ∧
      maxMemToUse sample1000 60 = some (add64 1000 60) :=
  ⟨(maxMemToUse_cgroup_fallback
      { vmErr := false, available := 1000, cgAvail := 300, cgErr := false } 60 rfl).1
      ⟨rfl, by decide⟩,
    (maxMemToUse_cgroup_fallback sample1000 60 rfl).2.1 (Or.inl rfl)⟩

/-! ## Reference counts -/

theorem FreeBuffer_eq_FreeBufferUnlocked (pool : BufferPool) (heap : List BufferPointer)
    (buffers : List FileBuffer) (i : Nat) :
    FreeBuffer pool heap buffers i = FreeBufferUnlocked pool heap buffers i := by
  unfold FreeBuffer FreeBufferUnlocked Free
  rfl

theorem countP_take_drop {α : Type} (p : α → Bool) (bs : List α) (i : Nat) (b : α)
    (hb : bs[i]? = some b) :
    (bs.take i ++ bs.drop (i + 1)).countP p + (if p b = true then 1 else 0) = bs.countP p := by
  obtain ⟨hi, hbi⟩ := List.getElem?_eq_some.mp hb
  have hsplit : bs = bs.take i ++ b :: bs.drop (i + 1) := by
    conv_lhs => rw [← List.take_append_drop i bs, List.drop_eq_getElem_cons hi, hbi]
  conv_rhs => rw [hsplit]
  simp only [List.countP_append, List.countP_cons]
  omega

theorem releaseOne_eq (w : World) (r : Release) (bs : List FileBuffer) (b : FileBuffer)
    (bp : BufferPointer) (hfile : w.files[r.file]? = some bs) (hb : bs[r.idx]? = some b)
    (hheap : w.heap[b.ptr]? = some bp) :
    releaseOne w r =
      some ({ pool := if bp.refs - 1 = 0 then
                  (FreeUnlocked w.pool (bp.buf.length % 2 ^ 64) (decide (b.dirtyID ≠ 0))).1
                else w.pool
              heap := w.heap.set b.ptr { bp with refs := bp.refs - 1 }
              files := w.files.set r.file (bs.take r.idx ++ bs.drop (r.idx + 1)) },
        if bp.refs - 1 = 0 then bp.buf.length % 2 ^ 64 else 0) := by
  unfold releaseOne
  rw [hfile]
  simp only [FreeBuffer_eq_FreeBufferUnlocked, ite_self]
  unfold FreeBufferUnlocked
  rw [hb]
  simp only [hheap]
  split_ifs <;> rfl

theorem targets_take (a f : Nat) :
    ∀ (rs : List Release) (bs : List FileBuffer) (j : Nat),
      targets a f bs rs = true → targets a f bs (rs.take j) = true := by
  intro rs
  induction rs with
  | nil => intro bs j h; simpa using h
  | cons r rs ih =>
    intro bs j h
    cases j with
    | zero => simp [targets]
    | succ j =>
      simp only [List.take_succ_cons]
      unfold targets at h ⊢
      cases hb : bs[r.idx]? with
      | none => simp [hb] at h
      | some b =>
        simp only [hb, Bool.and_eq_true] at h ⊢
        exact ⟨h.1, ih _ _ h.2⟩

/-- Releasing fewer descriptors of a buffer than its reference count: every
release returns 0 and the pool is untouched. -/
theorem releaseAll_below_refs (a f : Nat) :
    ∀ (rs : List Release) (w : World) (bs : List FileBuffer) (bp : BufferPointer),
      w.files[f]? = some bs → w.heap[a]? = some bp → targets a f bs rs = true →
      (rs.length : Int) < bp.refs →
      ∃ w1 bs1, releaseAll w rs = some (w1, List.replicate rs.length 0) ∧ w1.pool = w.pool ∧
        w1.heap[a]? = some { bp with refs := bp.refs - rs.length } ∧
        w1.files[f]? = some bs1 ∧
        bs1.countP (fun b => decide (b.ptr = a)) + rs.length =
          bs.countP (fun b => decide (b.ptr = a)) := by
  intro rs
  induction rs with
  | nil =>
    intro w bs bp hfile hheap _ _
    exact ⟨w, bs, rfl, rfl, by simpa using hheap, hfile, rfl⟩
  | cons r rs ih =>
    intro w bs bp hfile hheap ht hlt
    unfold targets at ht
    cases hb : bs[r.idx]? with
    | none => simp [hb] at ht
    | some b =>
      simp only [hb, Bool.and_eq_true, decide_eq_true_eq] at ht
      obtain ⟨⟨hrf, hptr⟩, ht2⟩ := ht
      simp only [List.length_cons, Nat.cast_add, Nat.cast_one] at hlt
      have hne : bp.refs - 1 ≠ 0 := by
        have : (0 : Int) ≤ (rs.length : Int) := Int.natCast_nonneg _  
        omega
      have hflt : f < w.files.length := (List.getElem?_eq_some.mp hfile).1
      have halt : a < w.heap.length := (List.getElem?_eq_some.mp hheap).1
      have hone := releaseOne_eq w r bs b bp (by rw [hrf]; exact hfile) hb (by rw [hptr]; exact hheap)
      rw [if_neg hne, if_neg hne, hrf, hptr] at hone
      obtain ⟨w1, bs1, h1, h2, h3, h4, h5⟩ :=
        ih { pool := w.pool, heap := w.heap.set a { bp with refs := bp.refs - 1 },
             files := w.files.set f (bs.take r.idx ++ bs.drop (r.idx + 1)) }
          (bs.take r.idx ++ bs.drop (r.idx + 1)) { bp with refs := bp.refs - 1 }
          (by simp [hflt]) (by simp [halt]) ht2 (by simp only; omega)
      refine ⟨w1, bs1, ?_, h2, ?_, h4, ?_⟩
      · unfold releaseAll
        rw [hone]
        simp only [h1, List.length_cons, List.replicate_succ]
      · rw [h3]
        simp only [List.length_cons, Nat.cast_add, Nat.cast_one, Option.some.injEq,
          BufferPointer.mk.injEq, true_and]
        omega
      · have hc := countP_take_drop (fun b => decide (b.ptr = a)) bs r.idx b hb
        simp only [hptr, decide_True, if_true] at hc
        simp only [List.length_cons]
        omega

/-- Releasing as many descriptors of a buffer as its reference count: all
releases but the last return 0, the last one returns the length of the buffer
and takes it off `cur`. -/
theorem releaseAll_all_refs (a f : Nat) :
    ∀ (rs : List Release) (w : World) (bs : List FileBuffer) (bp : BufferPointer),
      w.files[f]? = some bs → w.heap[a]? = some bp → targets a f bs rs = true →
      (rs.length : Int) = bp.refs → rs ≠ [] →
      ∃ w1 bs1, releaseAll w rs =
          some (w1, List.replicate (rs.length - 1) 0 ++ [bp.buf.length % 2 ^ 64]) ∧
        w1.pool.cur = sub64 w.pool.cur (bp.buf.length % 2 ^ 64) ∧
        w1.pool.max = w.pool.max ∧ w1.pool.limit = w.pool.limit ∧
        w1.heap[a]? = some { bp with refs := 0 } ∧
        w1.files[f]? = some bs1 ∧
        bs1.countP (fun b => decide (b.ptr = a)) + rs.length =
          bs.countP (fun b => decide (b.ptr = a)) := by
  intro rs
  induction rs with
  | nil => intro w bs bp _ _ _ _ hne; exact absurd rfl hne
  | cons r rs ih =>
    intro w bs bp hfile hheap ht hlen _
    unfold targets at ht
    cases hb : bs[r.idx]? with
    | none => simp [hb] at ht
    | some b =>
      simp only [hb, Bool.and_eq_true, decide_eq_true_eq] at ht
      obtain ⟨⟨hrf, hptr⟩, ht2⟩ := ht
      simp only [List.length_cons, Nat.cast_add, Nat.cast_one] at hlen
      have hflt : f < w.files.length := (List.getElem?_eq_some.mp hfile).1
      have halt : a < w.heap.length := (List.getElem?_eq_some.mp hheap).1
      have hone := releaseOne_eq w r bs b bp (by rw [hrf]; exact hfile) hb (by rw [hptr]; exact hheap)
      rw [hrf, hptr] at hone
      have hc := countP_take_drop (fun b => decide (b.ptr = a)) bs r.idx b hb
      simp only [hptr, decide_True, if_true] at hc
      cases rs with
      | nil =>
        have h0 : bp.refs - 1 = 0 := by
          simp only [List.length_nil, Nat.cast_zero] at hlen
          omega
        rw [if_pos h0, if_pos h0] at hone
        refine ⟨{ pool := (FreeUnlocked w.pool (bp.buf.length % 2 ^ 64)
                    (decide (b.dirtyID ≠ 0))).1
                  heap := w.heap.set a { bp with refs := bp.refs - 1 }
                  files := w.files.set f (bs.take r.idx ++ bs.drop (r.idx + 1)) },
          bs.take r.idx ++ bs.drop (r.idx + 1), ?_, ?_, ?_, ?_, ?_, ?_, ?_⟩
        · unfold releaseAll
          rw [hone]
          simp [releaseAll]
        · unfold FreeUnlocked
          simp only
          split_ifs <;> rfl
        · unfold FreeUnlocked
          simp only
          split_ifs <;> rfl
        · unfold FreeUnlocked
          simp only
          split_ifs <;> rfl
        · simp [halt, h0]
        · simp [hflt]
        · simp only [List.length_cons, List.length_nil]
          omega
      | cons r2 rs2 =>
        have hne : bp.refs - 1 ≠ 0 := by
          simp only [List.length_cons, Nat.cast_add, Nat.cast_one] at hlen
          have : (0 : Int) ≤ (rs2.length : Int) := Int.natCast_nonneg _
          omega
        rw [if_neg hne, if_neg hne] at hone
        obtain ⟨w1, bs1, h1, h2, h3, h4, h5, h6, h7⟩ :=
          ih { pool := w.pool, heap := w.heap.set a { bp with refs := bp.refs - 1 },
               files := w.files.set f (bs.take r.idx ++ bs.drop (r.idx + 1)) }
            (bs.take r.idx ++ bs.drop (r.idx + 1)) { bp with refs := bp.refs - 1 }
            (by simp [hflt]) (by simp [halt]) ht2 (by simp only; omega) (by simp)
        refine ⟨w1, bs1, ?_, h2, h3, h4, ?_, h6, ?_⟩
        · unfold releaseAll
          rw [hone]
          simp only [h1, List.length_cons, Nat.add_sub_cancel, List.replicate_succ,
            List.cons_append]
        · rw [h5]
        · simp only [List.length_cons] at h7 ⊢
          omega

/-- Claim C6: a buffer with `refs = k ≥ 1` referenced by exactly `k`
descriptors of a collection.  Releasing fewer than `k` of them, through
`FreeBuffer` or `FreeBufferUnlocked` in any order, returns 0 each time and
leaves the pool as it was; releasing all `k` returns 0 for the first `k - 1`
and the length of the buffer for the last, `cur` goes down by that length
(`uint64` subtraction, the plain difference when `cur` holds at least the
length), the reference count ends at 0 and no descriptor of the collection
references the buffer any more. -/
theorem release_refcount (w : World) (f a k : Nat) (bs : List FileBuffer) (bp : BufferPointer)
    (rs : List Release)
    (hfile : w.files[f]? = some bs) (hheap : w.heap[a]? = some bp)
    (hrefs : bp.refs = (k : Int)) (hk : 1 ≤ k)
    (hcount : bs.countP (fun b => decide (b.ptr = a)) = k)
    (hlen : rs.length = k) (htargets : targets a f bs rs = true)
    (hbuf : bp.buf.length < 2 ^ 64) :
    (∀ rs0 : List Release, rs0.length < k → targets a f bs rs0 = true →
      ∃ w0, releaseAll w rs0 = some (w0, List.replicate rs0.length 0) ∧ w0.pool = w.pool) ∧
    (∀ j, j < k → ∃ wj, releaseAll w (rs.take j) = some (wj, List.replicate j 0) ∧
      wj.pool = w.pool) ∧
    (∃ w1 bs1, releaseAll w rs = some (w1, List.replicate (k - 1) 0 ++ [bp.buf.length]) ∧
      w1.pool.cur = sub64 w.pool.cur bp.buf.length ∧
      (bp.buf.length ≤ w.pool.cur → w.pool.cur < 2 ^ 64 →
        w1.pool.cur = w.pool.cur - bp.buf.length) ∧
      w1.heap[a]? = some { bp with refs := 0 } ∧
      w1.files[f]? = some bs1 ∧ bs1.countP (fun b => decide (b.ptr = a)) = 0) := by
  have hmod : bp.buf.length % 2 ^ 64 = bp.buf.length := Nat.mod_eq_of_lt hbuf
  refine ⟨?_, ?_, ?_⟩
  · intro rs0 hlt ht0
    obtain ⟨w0, _, h1, h2, _⟩ :=
      releaseAll_below_refs a f rs0 w bs bp hfile hheap ht0 (by rw [hrefs]; exact_mod_cast hlt)
    exact ⟨w0, h1, h2⟩
  · intro j hj
    have hjl : (rs.take j).length = j := by
      rw [List.length_take]
      omega
    obtain ⟨wj, _, h1, h2, _⟩ :=
      releaseAll_below_refs a f (rs.take j) w bs bp hfile hheap (targets_take a f rs bs j htargets)
        (by rw [hjl, hrefs]; exact_mod_cast hj)
    rw [hjl] at h1
    exact ⟨wj, h1, h2⟩
  · obtain ⟨w1, bs1, h1, h2, _, _, h5, h6, h7⟩ :=
      releaseAll_all_refs a f rs w bs bp hfile hheap htargets (by rw [hlen, hrefs])
        (by intro h; rw [h] at hlen; simp at hlen; omega)
    rw [hmod] at h1 h2
    rw [hlen] at h1
    refine ⟨w1, bs1, h1, h2, ?_, h5, h6, by omega⟩
    intro hle hlt
    rw [h2]
    exact sub64_of_le hle hlt

/-- Witness of C6: the three descriptors of the 40-byte buffer of `sharedWorld`
are released; the third release returns 40 and `cur` goes from 100 to 60. -/
theorem release_refcount_witness :
    (∀ rs0 : List Release, rs0.length < 3 →
      targets 0 0
        [{ offset := 0, dirtyID := 5, flushed := false, buf := List.replicate 10 0, ptr := 0 },
         { offset := 100, dirtyID := 0, flushed := false, buf := List.replicate 60 0, ptr := 1 },
         { offset := 10, dirtyID := 6, flushed := false, buf := List.replicate 10 0, ptr := 0 },
         { offset := 20, dirtyID := 7, flushed := true, buf := List.replicate 20 0, ptr := 0 }]
        rs0 = true →
      ∃ w0, releaseAll sharedWorld rs0 = some (w0, List.replicate rs0.length 0) ∧
        w0.pool = sharedWorld.pool) ∧
    (∀ j, j < 3 → ∃ wj, releaseAll sharedWorld (sharedReleases.take j) =
        some (wj, List.replicate j 0) ∧ wj.pool = sharedWorld.pool) ∧
    (∃ w1 bs1, releaseAll sharedWorld sharedReleases =
        some (w1, List.replicate (3 - 1) 0 ++ [(List.replicate 40 (0 : Byte)).length]) ∧
      w1.pool.cur = sub64 sharedWorld.pool.cur (List.replicate 40 (0 : Byte)).length ∧
      ((List.replicate 40 (0 : Byte)).length ≤ sharedWorld.pool.cur →
        sharedWorld.pool.cur < 2 ^ 64 →
        w1.pool.cur = sharedWorld.pool.cur - (List.replicate 40 (0 : Byte)).length) ∧
      w1.heap[0]? = some { buf := List.replicate 40 0, refs := 0 } ∧
      w1.files[0]? = some bs1 ∧ bs1.countP (fun b => decide (b.ptr = 0)) = 0) :=
  release_refcount sharedWorld 0 0 3
    [{ offset := 0, dirtyID := 5, flushed := false, buf := List.replicate 10 0, ptr := 0 },
     { offset := 100, dirtyID := 0, flushed := false, buf := List.replicate 60 0, ptr := 1 },
     { offset := 10, dirtyID := 6, flushed := false, buf := List.replicate 10 0, ptr := 0 },
     { offset := 20, dirtyID := 7, flushed := true, buf := List.replicate 20 0, ptr := 0 }]
    { buf := List.replicate 40 0, refs := 3 } sharedReleases
    rfl rfl rfl (by decide) (by decide) rfl (by decide) (by decide)

/-! ## Dirty bytes and committed bytes -/

/-- A property of the world that depends on the pool only through `cur` and
`curDirty` and that the environment keeps is kept by the admission loop. -/
theorem UseLoop_keeps (P : World → Prop) (env : Env) (inode : InodeID) (size : Nat)
    (hframe : ∀ v (pool : BufferPool), P v → pool.cur = v.pool.cur →
      pool.curDirty = v.pool.curDirty → P { v with pool := pool })
    (henv : EnvKeeps P env) :
    ∀ (fuel k : Nat) (w : World) (tr : List Event) (q : World) (tr1 : List Event),
      P w → UseLoop env inode size fuel k w tr = (UseResult.returned q, tr1) → P q := by
  intro fuel
  induction fuel with
  | zero =>
    intro k w tr q tr1 _ h
    simp [UseLoop] at h
  | succ fuel ih =>
    intro k w tr q tr1 hw h
    have hev := henv.1 k inode (sub64 (add64 w.pool.cur size) w.pool.max) w hw
    unfold UseLoop at h
    split at h
    · simp only at h
      split at h
      · split at h
        · split at h
          · simp at h
          · rename_i pool2 hre
            have hf := recomputeBufferLimit_some hre
            split at h
            · simp at h
            · simp only [Prod.mk.injEq, UseResult.returned.injEq] at h
              rw [← h.1]
              exact hframe _ pool2 hev hf.1 hf.2.1
        · split at h
          · simp at h
          · rename_i w2 hwake
            exact ih _ _ _ _ _ (henv.2 k _ w2 hev hwake) h
      · exact ih _ _ _ _ _ hev h
    · simp only [Prod.mk.injEq, UseResult.returned.injEq] at h
      rw [← h.1]
      exact hw

theorem UseStep1_some {t : MemSample} {pool pool1 : BufferPool} {tr : List Event}
    (h : UseStep1 t pool = some (pool1, tr)) :
    pool1.cur = pool.cur ∧ pool1.curDirty = pool.curDirty ∧ pool1.limit = pool.limit ∧
      pool1.curDirtyID = pool.curDirtyID := by
  unfold UseStep1 at h
  simp only at h
  split at h
  · split at h
    · simp at h
    · rename_i pool2 hre
      have hf := recomputeBufferLimit_some hre
      simp only [Option.some.injEq, Prod.mk.injEq] at h
      rw [← h.1]
      exact ⟨hf.1, hf.2.1, hf.2.2.1, hf.2.2.2.1⟩
  · simp only [Option.some.injEq, Prod.mk.injEq] at h
    rw [← h.1]
    exact ⟨rfl, rfl, rfl, rfl⟩

theorem UseAdmit_keeps (P : World → Prop) (fuel : Nat) (env : Env) (inode : InodeID) (size : Nat)
    (hframe : ∀ v (pool : BufferPool), P v → pool.cur = v.pool.cur →
      pool.curDirty = v.pool.curDirty → P { v with pool := pool })
    (henv : EnvKeeps P env) (w q : World) (tr : List Event) (hw : P w)
    (h : UseAdmit fuel env inode size w = (UseResult.returned q, tr)) : P q := by
  unfold UseAdmit at h
  split at h
  · simp at h
  · rename_i pool1 tr0 h1
    have hf := UseStep1_some h1
    exact UseLoop_keeps P env inode size hframe henv _ _ _ _ _ _
      (hframe w pool1 hw hf.1 hf.2.1) h

theorem runCall_use_some {fuel : Nat} {env : Env} {inode : InodeID} {size : Nat} {dirty : Bool}
    {w w1 : World} (h : runCall w (Call.use fuel env inode size dirty) = some w1) :
    ∃ tr, Use fuel env inode size dirty w = (UseResult.returned w1, tr) := by
  simp only [runCall] at h
  split at h
  · rename_i w2 hres
    simp only [Option.some.injEq] at h
    refine ⟨(Use fuel env inode size dirty w).2, ?_⟩
    rw [← h, ← hres]
  · simp at h

theorem DirtyWithin_frame (v : World) (pool : BufferPool) (hv : DirtyWithin v)
    (hc : pool.cur = v.pool.cur) (hd : pool.curDirty = v.pool.curDirty) :
    DirtyWithin { v with pool := pool } := by
  unfold DirtyWithin at hv ⊢
  simp only [hc, hd]
  exact hv

theorem DirtyWithin_free (w : World) (size : Nat) (dirty : Bool) (hw : DirtyWithin w)
    (hr : if dirty = true then size ≤ w.pool.curDirty
      else size + w.pool.curDirty ≤ w.pool.cur) :
    DirtyWithin { w with pool := (FreeUnlocked w.pool size dirty).1 } := by
  obtain ⟨hle, hlt⟩ := hw
  unfold DirtyWithin FreeUnlocked
  cases dirty with
  | true =>
    simp only [if_true] at hr ⊢
    rw [sub64_of_le (le_trans hr hle) hlt, sub64_of_le hr (lt_of_le_of_lt hle hlt)]
    omega
  | false =>
    simp only [Bool.false_eq_true, if_false] at hr ⊢
    rw [sub64_of_le (by omega) hlt]
    omega

theorem DirtyWithin_step (w w1 : World) (c : Call) (hw : DirtyWithin w)
    (hc : callRespects w c) (hrun : runCall w c = some w1) : DirtyWithin w1 := by
  cases c with
  | use fuel env inode size dirty =>
    obtain ⟨tr, hu⟩ := runCall_use_some hrun
    obtain ⟨q, hq, rfl⟩ := (Use_returned_iff fuel env inode size dirty w w1 tr).mp hu
    obtain ⟨henv, hno⟩ := hc
    have hno := hno q tr hq
    obtain ⟨hle, hlt⟩ := UseAdmit_keeps DirtyWithin fuel env inode size DirtyWithin_frame henv
      w q tr hw hq
    have hf := UseCommit_fields q.pool size dirty
    unfold DirtyWithin
    show (UseCommit q.pool size dirty).curDirty ≤ (UseCommit q.pool size dirty).cur ∧
      (UseCommit q.pool size dirty).cur < 2 ^ 64
    rw [hf.1, hf.2.1, add64_of_lt hno]
    refine ⟨?_, hno⟩
    split_ifs
    · rw [add64_of_lt (by omega)]
      omega
    · omega
  | free size dirty =>
    simp only [runCall, Free, Option.some.injEq] at hrun
    rw [← hrun]
    exact DirtyWithin_free w size dirty hw hc
  | freeUnlocked size dirty =>
    simp only [runCall, Option.some.injEq] at hrun
    rw [← hrun]
    exact DirtyWithin_free w size dirty hw hc

theorem DirtyWithin_runCalls :
    ∀ (calls : List Call) (w : World), DirtyWithin w → callsRespect w calls →
      ∀ v, v ∈ runCalls w calls → DirtyWithin v := by
  intro calls
  induction calls with
  | nil =>
    intro w _ _ v hv
    simp [runCalls] at hv
  | cons c cs ih =>
    intro w hw hc v hv
    unfold runCalls at hv
    obtain ⟨hc1, hc2⟩ := hc
    cases hrun : runCall w c with
    | none => simp [hrun] at hv
    | some w1 =>
      simp only [hrun, List.mem_cons] at hv
      have h1 := DirtyWithin_step w w1 c hw hc1 hrun
      rcases hv with rfl | hv
      · exact h1
      · exact ih w1 h1 (hc2 w1 hrun) v hv

/-- Claim C8 as stated fails: from an empty pool, an admission of 10 clean
bytes followed by a release of 10 bytes flagged dirty (no more than the 10
committed bytes) leaves `cur = 0` and `curDirty = 2 ^ 64 - 10`. -/
theorem dirty_le_cur_counterexample :
    releasesWithinCommitted (initWorld 0 0) mixedCalls = true ∧
    (runCalls (initWorld 0 0) mixedCalls).map (fun w => (w.pool.cur, w.pool.curDirty)) =
      [(10, 0), (0, 2 ^ 64 - 10)] ∧
    ¬ (∀ calls : List Call, releasesWithinCommitted (initWorld 0 0) calls = true →
        ∀ w, w ∈ runCalls (initWorld 0 0) calls → w.pool.curDirty ≤ w.pool.cur) := by
  have h1 : releasesWithinCommitted (initWorld 0 0) mixedCalls = true := by decide
  have h2 : (runCalls (initWorld 0 0) mixedCalls).map (fun w => (w.pool.cur, w.pool.curDirty)) =
      [(10, 0), (0, 2 ^ 64 - 10)] := by decide
  refine ⟨h1, h2, ?_⟩
  intro hall
  have hmem : ∀ x, x ∈ (runCalls (initWorld 0 0) mixedCalls).map
      (fun w => (w.pool.cur, w.pool.curDirty)) → x.2 ≤ x.1 := by
    intro x hx
    obtain ⟨w, hw, rfl⟩ := List.mem_map.mp hx
    exact hall mixedCalls h1 w hw
  rw [h2] at hmem
  have := hmem (0, 2 ^ 64 - 10) (by simp)
  simp at this

/-- Claim C8, amended: from an empty pool, along any sequence of admissions and
releases in which every dirty release frees at most `curDirty` bytes, every
clean release frees at most `cur - curDirty` bytes, and every admission runs
with a callback and wake-ups that keep the property and commits without
wrapping around, `curDirty ≤ cur` holds after every call. -/
theorem dirty_le_cur_of_respect (limit nfiles : Nat) (calls : List Call)
    (h : callsRespect (initWorld limit nfiles) calls) :
    ∀ w, w ∈ runCalls (initWorld limit nfiles) calls → w.pool.curDirty ≤ w.pool.cur := by
  intro w hw
  have h0 : DirtyWithin (initWorld limit nfiles) := by
    unfold DirtyWithin initWorld NewBufferPool
    simp
  exact (DirtyWithin_runCalls calls _ h0 h w hw).1

theorem envIdle_keeps (P : World → Prop) : EnvKeeps P envIdle := by
  constructor
  · intro k inode size v hv
    exact hv
  · intro k v v1 _ h
    simp [envIdle] at h

theorem scenarioCalls_respect : callsRespect (initWorld 100 0) scenarioCalls := by
  unfold scenarioCalls
  refine ⟨⟨envIdle_keeps _, ?_⟩, ?_⟩
  · intro q tr h
    have hc : UseAdmit 1 envIdle 1 60 (initWorld 100 0) =
        (UseResult.returned { initWorld 100 0 with
            pool := { NewBufferPool 100 with max := 100, requests := 1 } },
          [Event.evict 1 60, Event.freeOSMemory, Event.recompute]) := by decide
    rw [hc] at h
    cases h
    decide
  · intro w1 h1
    have hc : runCall (initWorld 100 0) (Call.use 1 envIdle 1 60 true) =
        some { initWorld 100 0 with
          pool := { NewBufferPool 100 with max := 100, requests := 1, cur := 60, curDirty := 60 } } := by
      decide
    rw [hc] at h1
    cases h1
    refine ⟨by simp [callRespects, NewBufferPool], ?_⟩
    intro w2 h2
    simp only [runCall, Option.some.injEq] at h2
    subst h2
    refine ⟨⟨envIdle_keeps _, ?_⟩, ?_⟩
    · intro q tr h
      have hc2 : UseAdmit 1 envIdle 2 50
          { initWorld 100 0 with pool := (Free { NewBufferPool 100 with
              max := 100, requests := 1, cur := 60, curDirty := 60 } 20 true).1 } =
          (UseResult.returned { initWorld 100 0 with
              pool := { NewBufferPool 100 with
                max := 100, requests := 2, cur := 40, curDirty := 40 } }, []) := by decide
      rw [hc2] at h
      cases h
      decide
    · intro w3 _
      trivial

/-- Witness of C8 (amended): the scenario of the specification, with counters
(60, 60), (40, 40) and (90, 40) after its three calls. -/
theorem dirty_le_cur_of_respect_witness :
    (runCalls (initWorld 100 0) scenarioCalls).map (fun w => (w.pool.cur, w.pool.curDirty)) =
      [(60, 60), (40, 40), (90, 40)] ∧
    ∀ w, w ∈ runCalls (initWorld 100 0) scenarioCalls → w.pool.curDirty ≤ w.pool.cur :=
  ⟨by decide, dirty_le_cur_of_respect 100 0 scenarioCalls scenarioCalls_respect⟩

/-! ## The accounting invariant -/

theorem getElem?_decomp {α : Type} (l : List α) (n : Nat) (x : α) (h : l[n]? = some x) :
    ∃ pre post, l = pre ++ x :: post ∧ pre.length = n := by
  obtain ⟨hn, hx⟩ := List.getElem?_eq_some.mp h
  refine ⟨l.take n, l.drop (n + 1), ?_, ?_⟩
  · conv_lhs => rw [← List.take_append_drop n l, List.drop_eq_getElem_cons hn, hx]
  · rw [List.length_take]
    omega

theorem set_decomp {α : Type} (pre post : List α) (x y : α) :
    (pre ++ x :: post).set pre.length y = pre ++ y :: post := by
  induction pre with
  | nil => rfl
  | cons a pre ih => simp [ih]

theorem refCount_set (a f : Nat) (files : List (List FileBuffer)) (bs bs1 : List FileBuffer)
    (h : files[f]? = some bs) :
    refCount a (files.set f bs1) + bs.countP (fun b => decide (b.ptr = a)) =
      refCount a files + bs1.countP (fun b => decide (b.ptr = a)) := by
  obtain ⟨pre, post, rfl, rfl⟩ := getElem?_decomp files f bs h
  rw [set_decomp]
  unfold refCount
  simp only [List.flatten_append, List.flatten_cons, List.countP_append]
  omega

theorem mem_flatten_set (f : Nat) (files : List (List FileBuffer)) (bs bs1 : List FileBuffer)
    (b : FileBuffer) (h : files[f]? = some bs) (hb : b ∈ (files.set f bs1).flatten) :
    b ∈ bs1 ∨ b ∈ files.flatten := by
  obtain ⟨pre, post, rfl, rfl⟩ := getElem?_decomp files f bs h
  rw [set_decomp] at hb
  simp only [List.flatten_append, List.flatten_cons, List.mem_append] at hb ⊢
  tauto

theorem mem_flatten_of_getElem? (f : Nat) (files : List (List FileBuffer)) (bs : List FileBuffer)
    (b : FileBuffer) (h : files[f]? = some bs) (hb : b ∈ bs) : b ∈ files.flatten := by
  obtain ⟨pre, post, rfl, rfl⟩ := getElem?_decomp files f bs h
  simp only [List.flatten_append, List.flatten_cons, List.mem_append]
  tauto

theorem liveBytes_set (a : Nat) (heap : List BufferPointer) (bp bp1 : BufferPointer)
    (h : heap[a]? = some bp) :
    liveBytes (heap.set a bp1) + (if 0 < bp.refs then bp.buf.length else 0) =
      liveBytes heap + (if 0 < bp1.refs then bp1.buf.length else 0) := by
  obtain ⟨pre, post, rfl, rfl⟩ := getElem?_decomp heap a bp h
  rw [set_decomp]
  unfold liveBytes
  simp only [List.filter_append, List.filter_cons, List.map_append, List.sum_append,
    decide_eq_true_eq]
  split_ifs <;> simp <;> omega

theorem liveBytes_append_one (heap : List BufferPointer) (bp : BufferPointer) (h : 0 < bp.refs) :
    liveBytes (heap ++ [bp]) = liveBytes heap + bp.buf.length := by
  unfold liveBytes
  simp [List.filter_append, List.filter_cons, h]

theorem countP_insert {α : Type} (p : α → Bool) (bs : List α) (pos : Nat) (d : α) :
    (bs.take pos ++ d :: bs.drop pos).countP p =
      bs.countP p + (if p d = true then 1 else 0) := by
  conv_rhs => rw [← List.take_append_drop pos bs]
  simp only [List.countP_append, List.countP_cons]
  omega

theorem mem_insert {α : Type} (bs : List α) (pos : Nat) (d x : α)
    (h : x ∈ bs.take pos ++ d :: bs.drop pos) : x = d ∨ x ∈ bs := by
  simp only [List.mem_append, List.mem_cons] at h
  rcases h with h | h | h
  · exact Or.inr (List.mem_of_mem_take h)
  · exact Or.inl h
  · exact Or.inr (List.mem_of_mem_drop h)

theorem mem_take_drop {α : Type} (bs : List α) (i : Nat) (x : α)
    (h : x ∈ bs.take i ++ bs.drop (i + 1)) : x ∈ bs := by
  simp only [List.mem_append] at h
  rcases h with h | h
  · exact List.mem_of_mem_take h
  · exact List.mem_of_mem_drop h

theorem countP_pos_of_getElem? {α : Type} (p : α → Bool) (bs : List α) (i : Nat) (b : α)
    (hb : bs[i]? = some b) (hp : p b = true) : 0 < bs.countP p := by
  have h := countP_take_drop p bs i b hb
  rw [if_pos hp] at h
  omega

theorem refCount_pos (f i : Nat) (files : List (List FileBuffer)) (bs : List FileBuffer)
    (b : FileBuffer) (h : files[f]? = some bs) (hb : bs[i]? = some b) :
    0 < refCount b.ptr files := by
  obtain ⟨pre, post, rfl, rfl⟩ := getElem?_decomp files f bs h
  have := countP_pos_of_getElem? (fun x => decide (x.ptr = b.ptr)) bs i b hb (by simp)
  unfold refCount
  simp only [List.flatten_append, List.flatten_cons, List.countP_append]
  omega

theorem releaseOne_some (w : World) (r : Release) (x : World × Nat)
    (h : releaseOne w r = some x) :
    ∃ bs b bp, w.files[r.file]? = some bs ∧ bs[r.idx]? = some b ∧ w.heap[b.ptr]? = some bp := by
  unfold releaseOne at h
  cases hf : w.files[r.file]? with
  | none => simp [hf] at h
  | some bs =>
    cases hb : bs[r.idx]? with
    | none => simp [hf, FreeBuffer_eq_FreeBufferUnlocked, FreeBufferUnlocked, hb] at h
    | some b =>
      cases hp : w.heap[b.ptr]? with
      | none => simp [hf, FreeBuffer_eq_FreeBufferUnlocked, FreeBufferUnlocked, hb, hp] at h
      | some bp => exact ⟨bs, b, bp, rfl, hb, hp⟩

theorem FreeUnlocked_cur (pool : BufferPool) (size : Nat) (dirty : Bool) :
    (FreeUnlocked pool size dirty).1.cur = sub64 pool.cur size := by
  unfold FreeUnlocked
  cases dirty <;> rfl

theorem Accounted_frame (v : World) (pool : BufferPool) (hv : Accounted v)
    (hc : pool.cur = v.pool.cur) (_hd : pool.curDirty = v.pool.curDirty) :
    Accounted { v with pool := pool } := by
  obtain ⟨h1, h2, h3⟩ := hv
  exact ⟨by rw [← h1]; exact hc, h2, h3⟩

/-- A descriptor release keeps the accounting discipline. -/
theorem Accounted_release (w w1 : World) (r : Release) (n : Nat) (hw : Accounted w)
    (h : releaseOne w r = some (w1, n)) : Accounted w1 := by
  obtain ⟨bs, b, bp, hf, hb, hp⟩ := releaseOne_some w r _ h
  rw [releaseOne_eq w r bs b bp hf hb hp] at h
  simp only [Option.some.injEq, Prod.mk.injEq] at h
  obtain ⟨hI, hC, hB⟩ := hw
  have hrefs : bp.refs = (refCount b.ptr w.files : Int) := hC _ _ hp
  have hpos : 0 < refCount b.ptr w.files := refCount_pos r.file r.idx w.files bs b hf hb
  have hlive := liveBytes_set b.ptr w.heap bp { bp with refs := bp.refs - 1 } hp
  have hcnt := fun a => refCount_set a r.file w.files bs (bs.take r.idx ++ bs.drop (r.idx + 1)) hf
  have htd := fun a => countP_take_drop (fun x => decide (x.ptr = a)) bs r.idx b hb
  rw [← h.1]
  refine ⟨?_, ?_, ?_⟩
  · show (if bp.refs - 1 = 0 then
        (FreeUnlocked w.pool (bp.buf.length % 2 ^ 64) (decide (b.dirtyID ≠ 0))).1
        else w.pool).cur = liveBytes (w.heap.set b.ptr { bp with refs := bp.refs - 1 }) % 2 ^ 64
    rw [if_pos (by omega : 0 < bp.refs)] at hlive
    simp only at hlive
    by_cases h0 : bp.refs - 1 = 0
    · rw [if_pos h0, FreeUnlocked_cur, hI]
      rw [if_neg (by omega)] at hlive
      unfold sub64
      omega
    · rw [if_neg h0, hI]
      rw [if_pos (by omega)] at hlive
      congr 1
      omega
  · intro a bp1 ha
    simp only [List.getElem?_set] at ha
    have hc := hcnt a
    have ht := htd a
    by_cases hab : b.ptr = a
    · rw [if_pos hab] at ha
      split_ifs at ha with hlt
      simp only [Option.some.injEq] at ha
      rw [← ha]
      simp only [hab, decide_True, if_true] at ht
      show bp.refs - 1 = ((refCount a (w.files.set r.file
        (bs.take r.idx ++ bs.drop (r.idx + 1))) : Nat) : Int)
      rw [hab] at hrefs
      omega
    · rw [if_neg hab] at ha
      have := hC a bp1 ha
      simp only [hab, decide_False, Bool.false_eq_true, if_false] at ht
      show bp1.refs = ((refCount a (w.files.set r.file
        (bs.take r.idx ++ bs.drop (r.idx + 1))) : Nat) : Int)
      omega
  · intro x hx
    show x.ptr < (w.heap.set b.ptr { bp with refs := bp.refs - 1 }).length
    rw [List.length_set]
    rcases mem_flatten_set r.file w.files bs _ x hf hx with hx1 | hx1
    · exact hB x (mem_flatten_of_getElem? r.file w.files bs x hf (mem_take_drop bs r.idx x hx1))
    · exact hB x hx1

/-- A zero-copy split keeps the accounting discipline. -/
theorem Accounted_split (w w1 : World) (f i pos : Nat) (d : FileBuffer) (hw : Accounted w)
    (h : splitBuffer f i pos d w = some w1) : Accounted w1 := by
  unfold splitBuffer at h
  cases hf : w.files[f]? with
  | none => simp [hf] at h
  | some bs =>
    cases hb : bs[i]? with
    | none => simp [hf, hb] at h
    | some b =>
      cases hp : w.heap[b.ptr]? with
      | none => simp [hf, hb, hp] at h
      | some bp =>
        simp only [hf, hb, hp, Option.some.injEq] at h
        obtain ⟨hI, hC, hB⟩ := hw
        have hrefs : bp.refs = (refCount b.ptr w.files : Int) := hC _ _ hp
        have hpos : 0 < refCount b.ptr w.files := refCount_pos f i w.files bs b hf hb
        have hlive := liveBytes_set b.ptr w.heap bp { bp with refs := bp.refs + 1 } hp
        have hcnt := fun a => refCount_set a f w.files bs
          (bs.take pos ++ { d with ptr := b.ptr } :: bs.drop pos) hf
        have hins : ∀ a, (bs.take pos ++ { d with ptr := b.ptr } :: bs.drop pos).countP
            (fun x => decide (x.ptr = a)) =
            bs.countP (fun x => decide (x.ptr = a)) + (if b.ptr = a then 1 else 0) := by
          intro a
          rw [countP_insert]
          simp
        rw [← h]
        refine ⟨?_, ?_, ?_⟩
        · show w.pool.cur = liveBytes (w.heap.set b.ptr { bp with refs := bp.refs + 1 }) % 2 ^ 64
          rw [if_pos (by omega : 0 < bp.refs)] at hlive
          simp only at hlive
          rw [if_pos (by omega)] at hlive
          rw [hI]
          congr 1
          omega
        · intro a bp1 ha
          simp only [List.getElem?_set] at ha
          have hc := hcnt a
          have ht := hins a
          by_cases hab : b.ptr = a
          · rw [if_pos hab] at ha
            split_ifs at ha with hlt
            simp only [Option.some.injEq] at ha
            rw [← ha]
            rw [if_pos hab] at ht
            show bp.refs + 1 = ((refCount a (w.files.set f
              (bs.take pos ++ { d with ptr := b.ptr } :: bs.drop pos)) : Nat) : Int)
            rw [hab] at hrefs
            omega
          · rw [if_neg hab] at ha
            have := hC a bp1 ha
            rw [if_neg hab] at ht
            show bp1.refs = ((refCount a (w.files.set f
              (bs.take pos ++ { d with ptr := b.ptr } :: bs.drop pos)) : Nat) : Int)
            omega
        · intro x hx
          show x.ptr < (w.heap.set b.ptr { bp with refs := bp.refs + 1 }).length
          rw [List.length_set]
          rcases mem_flatten_set f w.files bs _ x hf hx with hx1 | hx1
          · rcases mem_insert bs pos ({ d with ptr := b.ptr } : FileBuffer) x hx1 with rfl | hx2
            · exact (List.getElem?_eq_some.mp hp).1
            · exact hB x (mem_flatten_of_getElem? f w.files bs x hf hx2)
          · exact hB x hx1

theorem refCount_eq_zero (a : Nat) (files : List (List FileBuffer))
    (h : ∀ b, b ∈ files.flatten → b.ptr < a) : refCount a files = 0 := by
  unfold refCount
  rw [List.countP_eq_zero]
  intro b hb
  have := h b hb
  simp only [decide_eq_true_eq]
  omega

/-- An allocation (admission, then creation of the buffer and of its first
descriptor) keeps the accounting discipline when the environment of the
admission does. -/
theorem Accounted_alloc (w w1 : World) (fuel : Nat) (env : Env) (inode : InodeID)
    (dirty : Bool) (data : List Byte) (f pos : Nat) (d : FileBuffer) (hw : Accounted w)
    (henv : EnvKeeps Accounted env)
    (h : allocBuffer fuel env inode dirty data f pos d w = some w1) : Accounted w1 := by
  unfold allocBuffer at h
  split at h
  · rename_i w2 hres
    have hu : Use fuel env inode (data.length % 2 ^ 64) dirty w =
        (UseResult.returned w2, (Use fuel env inode (data.length % 2 ^ 64) dirty w).2) := by
      rw [← hres]
    obtain ⟨q, hq, rfl⟩ := (Use_returned_iff _ _ _ _ _ _ _ _).mp hu
    obtain ⟨hI, hC, hB⟩ := UseAdmit_keeps Accounted fuel env inode _ Accounted_frame henv
      w q _ hw hq
    simp only at h
    cases hf : q.files[f]? with
    | none => simp [hf] at h
    | some bs =>
      simp only [hf, Option.some.injEq] at h
      have hcnt := fun a => refCount_set a f q.files bs
        (bs.take pos ++ { d with ptr := q.heap.length } :: bs.drop pos) hf
      have hins : ∀ a, (bs.take pos ++ { d with ptr := q.heap.length } :: bs.drop pos).countP
          (fun x => decide (x.ptr = a)) =
          bs.countP (fun x => decide (x.ptr = a)) + (if q.heap.length = a then 1 else 0) := by
        intro a
        rw [countP_insert]
        simp
      rw [← h]
      refine ⟨?_, ?_, ?_⟩
      · show (UseCommit q.pool (data.length % 2 ^ 64) dirty).cur =
          liveBytes (q.heap ++ [{ buf := data, refs := 1 }]) % 2 ^ 64
        rw [(UseCommit_fields _ _ _).1,
          liveBytes_append_one q.heap { buf := data, refs := 1 } Int.one_pos, hI]
        unfold add64
        simp only
        omega
      · intro a bp1 ha
        have hc := hcnt a
        have ht := hins a
        show bp1.refs = ((refCount a (q.files.set f
          (bs.take pos ++ { d with ptr := q.heap.length } :: bs.drop pos)) : Nat) : Int)
        by_cases hlt : a < q.heap.length
        · rw [List.getElem?_append_left hlt] at ha
          have := hC a bp1 ha
          have hne : ¬ q.heap.length = a := by omega
          rw [if_neg hne] at ht
          omega
        · rw [List.getElem?_append_right (by omega)] at ha
          have ha0 : a - q.heap.length = 0 := by
            by_contra hne
            rw [List.getElem?_eq_none (by simp; omega)] at ha
            cases ha
          have hae : q.heap.length = a := by omega
          rw [ha0] at ha
          simp only [List.getElem?_cons_zero, Option.some.injEq] at ha
          rw [← ha]
          have hz := refCount_eq_zero a q.files (by rw [← hae]; exact hB)
          rw [if_pos hae] at ht
          simp only
          omega
      · intro x hx
        show x.ptr < (q.heap ++ [({ buf := data, refs := 1 } : BufferPointer)]).length
        rw [List.length_append, List.length_singleton]
        rcases mem_flatten_set f q.files bs _ x hf hx with hx1 | hx1
        · rcases mem_insert bs pos ({ d with ptr := q.heap.length } : FileBuffer) x hx1 with rfl | hx2
          · exact Nat.lt_succ_self _
          · exact Nat.lt_succ_of_lt (hB x (mem_flatten_of_getElem? f q.files bs x hf hx2))
        · exact Nat.lt_succ_of_lt (hB x hx1)
  · simp at h

theorem Accounted_init (limit nfiles : Nat) : Accounted (initWorld limit nfiles) := by
  unfold Accounted initWorld NewBufferPool liveBytes
  refine ⟨by simp, ?_, ?_⟩
  · intro a bp h
    simp at h
  · intro b hb
    simp only [List.mem_flatten, List.mem_replicate] at hb
    obtain ⟨l, ⟨_, rfl⟩, hbl⟩ := hb
    simp at hbl

theorem Accounted_runOps :
    ∀ (ops : List Op) (w : World), Accounted w → opsDisciplined ops →
      ∀ v, v ∈ runOps w ops → Accounted v := by
  intro ops
  induction ops with
  | nil =>
    intro w _ _ v hv
    simp [runOps] at hv
  | cons op ops ih =>
    intro w hw hd v hv
    unfold runOps at hv
    cases hrun : runOp w op with
    | none => simp [hrun] at hv
    | some w1 =>
      simp only [hrun, List.mem_cons] at hv
      have h1 : Accounted w1 ∧ opsDisciplined ops := by
        cases op with
        | alloc fuel env inode dirty data f pos d =>
          exact ⟨Accounted_alloc w w1 fuel env inode dirty data f pos d hw hd.1 hrun, hd.2⟩
        | split f i pos d =>
          exact ⟨Accounted_split w w1 f i pos d hw hrun, hd⟩
        | free r =>
          refine ⟨?_, hd⟩
          simp only [runOp, Option.map_eq_some'] at hrun
          obtain ⟨⟨w2, n⟩, hr, rfl⟩ := hrun
          exact Accounted_release w w2 r n hw hr
      rcases hv with rfl | hv
      · exact h1.1
      · exact ih w1 h1.1 h1.2 v hv

/-- Claim C7: starting from an empty pool, along any sequence of allocations
(a successful `Use` of `n` bytes followed by the creation of a buffer of
length `n` with `refs = 1`), zero-copy splits and descriptor releases through
`FreeBuffer` / `FreeBufferUnlocked`, in which the callback and the wake-ups of
each `Use` follow the same discipline, after every operation `cur` is the sum
of the lengths of the buffers with `refs > 0`: as `uint64` values in general,
and as plain numbers as soon as that sum is representable. -/
theorem accounting_invariant (limit nfiles : Nat) (ops : List Op) (hops : opsDisciplined ops) :
    ∀ w, w ∈ runOps (initWorld limit nfiles) ops →
      w.pool.cur = liveBytes w.heap % 2 ^ 64 ∧
      (liveBytes w.heap < 2 ^ 64 → w.pool.cur = liveBytes w.heap) := by
  intro w hw
  have h := (Accounted_runOps ops _ (Accounted_init limit nfiles) hops w hw).1
  refine ⟨h, fun hlt => ?_⟩
  rw [h, Nat.mod_eq_of_lt hlt]

theorem envEvictFirst_keeps : EnvKeeps Accounted envEvictFirst := by
  constructor
  · intro k inode size v hv
    show Accounted (match releaseOne v { locked := false, file := 0, idx := 0 } with
      | some (w1, n) => (w1, n)
      | none => (v, 0)).1
    cases hr : releaseOne v { locked := false, file := 0, idx := 0 } with
    | none => exact hv
    | some x =>
      obtain ⟨w1, n⟩ := x
      exact Accounted_release v w1 _ n hv hr
  · intro k v v1 _ h
    simp [envEvictFirst] at h

theorem lifecycleOps_disciplined : opsDisciplined lifecycleOps := by
  simp only [lifecycleOps, opsDisciplined, and_true]
  exact ⟨envIdle_keeps _, envIdle_keeps _, envEvictFirst_keeps⟩

/-- Witness of C7: along `lifecycleOps` the committed bytes and the live bytes
are 60, 60, 90, 90, 30 and 80. -/
theorem accounting_invariant_witness :
    (runOps (initWorld 100 1) lifecycleOps).map (fun w => (w.pool.cur, liveBytes w.heap)) =
      [(60, 60), (60, 60), (90, 90), (90, 90), (30, 30), (80, 80)] ∧
    ∀ w, w ∈ runOps (initWorld 100 1) lifecycleOps →
      w.pool.cur = liveBytes w.heap % 2 ^ 64 ∧
      (liveBytes w.heap < 2 ^ 64 → w.pool.cur = liveBytes w.heap) :=
  ⟨by decide, accounting_invariant 100 1 lifecycleOps lifecycleOps_disciplined⟩

/-! ## Dirty accounting adjustment -/

/-- Claim C11: for a signed delta `d` with `0 ≤ curDirty + d < 2 ^ 64`,
`AddDirty(d)` sets `curDirty` to exactly `curDirty + d` and leaves `cur`,
`max`, `limit`, `requests` and `curDirtyID` as they were.  `AddDirty` acts on
the pool counters alone, so no callback is invoked and nothing waits. -/
theorem AddDirty_exact (pool : BufferPool) (d : Int)
    (hcur : pool.curDirty < 2 ^ 64) (hlo : -2 ^ 63 ≤ d) (hhi : d < 2 ^ 63)
    (h0 : 0 ≤ (pool.curDirty : Int) + d) (h1 : (pool.curDirty : Int) + d < 2 ^ 64) :
    ((AddDirty pool d).curDirty : Int) = (pool.curDirty : Int) + d ∧
      AddDirty pool d = { pool with curDirty := ((pool.curDirty : Int) + d).toNat } ∧
      (AddDirty pool d).cur = pool.cur ∧ (AddDirty pool d).max = pool.max ∧
      (AddDirty pool d).limit = pool.limit ∧ (AddDirty pool d).requests = pool.requests ∧
      (AddDirty pool d).curDirtyID = pool.curDirtyID := by
  have hval : toUint64 (addInt64 (toInt64 pool.curDirty) d) =
      ((pool.curDirty : Int) + d).toNat := by
    unfold toUint64 addInt64 toInt64
    split_ifs <;> omega
  refine ⟨?_, ?_, rfl, rfl, rfl, rfl, rfl⟩
  · show ((toUint64 (addInt64 (toInt64 pool.curDirty) d) : Nat) : Int) = _
    rw [hval]
    omega
  · unfold AddDirty
    rw [hval]

/-- Witness of C11: a flush of 20 of the 60 dirty bytes of the scenario. -/
theorem AddDirty_exact_witness :
    ((AddDirty scenarioPool (-20)).curDirty : Int) = (60 : Int) + (-20) ∧
      AddDirty scenarioPool (-20) = { scenarioPool with curDirty := ((60 : Int) + (-20)).toNat } ∧
      (AddDirty scenarioPool (-20)).cur = 60 ∧ (AddDirty scenarioPool (-20)).max = 100 ∧
      (AddDirty scenarioPool (-20)).limit = 100 ∧ (AddDirty scenarioPool (-20)).requests = 1 ∧
      (AddDirty scenarioPool (-20)).curDirtyID = 1 :=
  AddDirty_exact scenarioPool (-20) (by decide) (by decide) (by decide) (by decide) (by decide)

/-! ## Descriptor removal and release classification -/

theorem FreeBufferUnlocked_eq (pool : BufferPool) (heap : List BufferPointer)
    (bs : List FileBuffer) (i : Nat) (b : FileBuffer) (bp : BufferPointer)
    (hb : bs[i]? = some b) (hp : heap[b.ptr]? = some bp) :
    FreeBufferUnlocked pool heap bs i =
      some { pool := if bp.refs - 1 = 0 then
                (FreeUnlocked pool (bp.buf.length % 2 ^ 64) (decide (b.dirtyID ≠ 0))).1
              else pool
             heap := heap.set b.ptr { bp with refs := bp.refs - 1 }
             buffers := bs.take i ++ bs.drop (i + 1)
             freed := if bp.refs - 1 = 0 then bp.buf.length % 2 ^ 64 else 0
             notify := if bp.refs - 1 = 0 then
                (FreeUnlocked pool (bp.buf.length % 2 ^ 64) (decide (b.dirtyID ≠ 0))).2
              else false } := by
  unfold FreeBufferUnlocked
  rw [hb]
  simp only [hp]
  split_ifs <;> rfl

/-- Claim C12: `FreeBuffer(bs, i)` and `FreeBufferUnlocked(bs, i)`, for an index
`i < len(bs)` whose descriptor references a buffer, return with a collection
of length `len(bs) - 1` that is `bs[0..i)` followed by `bs[i+1..]`: the
descriptors before `i` stay in place, those after `i` move down by one, and
each is the descriptor it was (offset, dirtyID, flushed flag, view). -/
theorem FreeBuffer_removes_descriptor (pool : BufferPool) (heap : List BufferPointer)
    (bs : List FileBuffer) (i : Nat) (b : FileBuffer) (bp : BufferPointer)
    (hi : i < bs.length) (hb : bs[i]? = some b) (hp : heap[b.ptr]? = some bp) :
    ∃ res, FreeBufferUnlocked pool heap bs i = some res ∧
      FreeBuffer pool heap bs i = some res ∧
      res.buffers.length = bs.length - 1 ∧
      res.buffers = bs.take i ++ bs.drop (i + 1) ∧
      res.buffers = bs.eraseIdx i ∧
      (∀ j, j < i → res.buffers[j]? = bs[j]?) ∧
      (∀ j, i ≤ j → res.buffers[j]? = bs[j + 1]?) := by
  have he := FreeBufferUnlocked_eq pool heap bs i b bp hb hp
  refine ⟨_, he, by rw [FreeBuffer_eq_FreeBufferUnlocked]; exact he, ?_, rfl, ?_, ?_, ?_⟩
  · show (bs.take i ++ bs.drop (i + 1)).length = bs.length - 1
    rw [← List.eraseIdx_eq_take_drop_succ, List.length_eraseIdx, if_pos hi]
  · show bs.take i ++ bs.drop (i + 1) = bs.eraseIdx i
    rw [List.eraseIdx_eq_take_drop_succ]
  · intro j hj
    show (bs.take i ++ bs.drop (i + 1))[j]? = bs[j]?
    rw [← List.eraseIdx_eq_take_drop_succ, List.getElem?_eraseIdx, if_pos hj]
  · intro j hj
    show (bs.take i ++ bs.drop (i + 1))[j]? = bs[j + 1]?
    rw [← List.eraseIdx_eq_take_drop_succ, List.getElem?_eraseIdx, if_neg (by omega)]

/-- Claim C19: when `FreeBuffer` / `FreeBufferUnlocked` drops the last reference
(`refs` goes from 1 to 0), `cur` goes down by the length of the buffer and
`curDirty` goes down by that length when the dirtyID of the released
descriptor is nonzero and stays as it is when that dirtyID is 0; nothing but
the released descriptor decides it, whatever was released before.  When `refs`
stays above 0 the pool is left as it was. -/
theorem FreeBuffer_classification (pool : BufferPool) (heap : List BufferPointer)
    (bs : List FileBuffer) (i : Nat) (b : FileBuffer) (bp : BufferPointer)
    (hb : bs[i]? = some b) (hp : heap[b.ptr]? = some bp) (hbuf : bp.buf.length < 2 ^ 64) :
    ∃ res, FreeBufferUnlocked pool heap bs i = some res ∧
      FreeBuffer pool heap bs i = some res ∧
      (bp.refs = 1 →
        res.pool.cur = sub64 pool.cur bp.buf.length ∧
        (b.dirtyID ≠ 0 → res.pool.curDirty = sub64 pool.curDirty bp.buf.length) ∧
        (b.dirtyID ≠ 0 → bp.buf.length ≤ pool.curDirty → pool.curDirty < 2 ^ 64 →
          res.pool.curDirty = pool.curDirty - bp.buf.length) ∧
        (b.dirtyID = 0 → res.pool.curDirty = pool.curDirty) ∧
        res.freed = bp.buf.length) ∧
      (1 < bp.refs → res.pool = pool ∧ res.freed = 0) := by
  have he := FreeBufferUnlocked_eq pool heap bs i b bp hb hp
  have hmod : bp.buf.length % 2 ^ 64 = bp.buf.length := Nat.mod_eq_of_lt hbuf
  refine ⟨_, he, by rw [FreeBuffer_eq_FreeBufferUnlocked]; exact he, ?_, ?_⟩
  · intro h1
    have h0 : bp.refs - 1 = 0 := by omega
    simp only [if_pos h0, hmod]
    refine ⟨FreeUnlocked_cur _ _ _, ?_, ?_, ?_, trivial⟩
    · intro hd
      unfold FreeUnlocked
      simp [hd]
    · intro hd hle hlt
      unfold FreeUnlocked
      simp only [hd, ne_eq, not_false_eq_true, decide_True, if_true]
      exact sub64_of_le hle hlt
    · intro hd
      unfold FreeUnlocked
      simp [hd]
  · intro h1
    have h0 : ¬ bp.refs - 1 = 0 := by omega
    simp only [if_neg h0]
    exact ⟨trivial, trivial⟩

/-- Witness of C12: descriptor 2 of the four descriptors of `sharedWorld` is
released. -/
theorem FreeBuffer_removes_descriptor_witness :
    ∃ res, FreeBufferUnlocked sharedWorld.pool sharedWorld.heap
        [{ offset := 0, dirtyID := 5, flushed := false, buf := List.replicate 10 0, ptr := 0 },
         { offset := 100, dirtyID := 0, flushed := false, buf := List.replicate 60 0, ptr := 1 },
         { offset := 10, dirtyID := 6, flushed := false, buf := List.replicate 10 0, ptr := 0 },
         { offset := 20, dirtyID := 7, flushed := true, buf := List.replicate 20 0, ptr := 0 }] 2
        = some res ∧
      res.buffers =
        [{ offset := 0, dirtyID := 5, flushed := false, buf := List.replicate 10 0, ptr := 0 },
         { offset := 100, dirtyID := 0, flushed := false, buf := List.replicate 60 0, ptr := 1 },
         { offset := 20, dirtyID := 7, flushed := true, buf := List.replicate 20 0, ptr := 0 }] :=
  match FreeBuffer_removes_descriptor sharedWorld.pool sharedWorld.heap
      [{ offset := 0, dirtyID := 5, flushed := false, buf := List.replicate 10 0, ptr := 0 },
       { offset := 100, dirtyID := 0, flushed := false, buf := List.replicate 60 0, ptr := 1 },
       { offset := 10, dirtyID := 6, flushed := false, buf := List.replicate 10 0, ptr := 0 },
       { offset := 20, dirtyID := 7, flushed := true, buf := List.replicate 20 0, ptr := 0 }] 2
      { offset := 10, dirtyID := 6, flushed := false, buf := List.replicate 10 0, ptr := 0 }
      { buf := List.replicate 40 0, refs := 3 } (by decide) rfl rfl with
  | ⟨res, h1, _, _, h4, _⟩ => ⟨res, h1, by rw [h4]; rfl⟩

/-- Witness of C19: releasing the dirty descriptor of `lastRefBuffers` takes 40
bytes off `cur` and off `curDirty`; releasing the clean one takes 60 bytes off
`cur` and leaves `curDirty` at 40. -/
theorem FreeBuffer_classification_witness :
    (∃ res, FreeBufferUnlocked lastRefPool lastRefHeap lastRefBuffers 0 = some res ∧
      res.pool.cur = 60 ∧ res.pool.curDirty = 40 - 40 ∧ res.freed = 40) ∧
    (∃ res, FreeBuffer lastRefPool lastRefHeap lastRefBuffers 1 = some res ∧
      res.pool.cur = 40 ∧ res.pool.curDirty = 40 ∧ res.freed = 60) :=
  ⟨match FreeBuffer_classification lastRefPool lastRefHeap lastRefBuffers 0
      { offset := 0, dirtyID := 5, flushed := false, buf := List.replicate 40 0, ptr := 0 }
      { buf := List.replicate 40 0, refs := 1 } rfl rfl (by decide) with
    | ⟨res, h1, _, h3, _⟩ =>
      ⟨res, h1, (h3 rfl).1, (h3 rfl).2.2.1 (by decide) (by decide) (by decide), (h3 rfl).2.2.2.2⟩,
   match FreeBuffer_classification lastRefPool lastRefHeap lastRefBuffers 1
      { offset := 40, dirtyID := 0, flushed := false, buf := List.replicate 60 0, ptr := 1 }
      { buf := List.replicate 60 0, refs := 1 } rfl rfl (by decide) with
    | ⟨res, _, h2, h3, _⟩ =>
      ⟨res, h2, (h3 rfl).1, (h3 rfl).2.2.2.1 rfl, (h3 rfl).2.2.2.2⟩⟩

/-! ## Blocking, fatal condition and eviction requests -/

theorem UseLoop_oom (env : Env) (inode : InodeID) (size : Nat) :
    ∀ (fuel k : Nat) (w : World) (tr : List Event) (w1 : World) (tr1 : List Event),
      UseLoop env inode size fuel k w tr = (UseResult.oom w1, tr1) → w1.pool.cur = 0 := by
  intro fuel
  induction fuel with
  | zero =>
    intro k w tr w1 tr1 h
    simp [UseLoop] at h
  | succ fuel ih =>
    intro k w tr w1 tr1 h
    unfold UseLoop at h
    split at h
    · simp only at h
      split at h
      · split at h
        · rename_i hzero
          split at h
          · simp at h
          · rename_i pool2 hre
            split at h
            · simp only [Prod.mk.injEq, UseResult.oom.injEq] at h
              rw [← h.1]
              show pool2.cur = 0
              rw [(recomputeBufferLimit_some hre).1]
              exact hzero
            · simp at h
        · split at h
          · simp at h
          · exact ih _ _ _ _ _ h
      · exact ih _ _ _ _ _ h
    · simp at h

theorem Use_oom_cur (fuel : Nat) (env : Env) (inode : InodeID) (size : Nat) (dirty : Bool)
    (w w1 : World) (tr : List Event)
    (h : Use fuel env inode size dirty w = (UseResult.oom w1, tr)) : w1.pool.cur = 0 := by
  unfold Use at h
  split at h
  · simp at h
  · rename_i hne
    unfold UseAdmit at h
    split at h
    · simp at h
    · exact UseLoop_oom env inode size _ _ _ _ _ _ h

/-- Claim C17: in an iteration of the loop of `Use` in which the request does
not fit after the callback returned, (a) with `cur = 0` the call does not wait:
it recomputes the ceiling, raises the fatal OOM exactly when `size` exceeds the
recomputed ceiling and otherwise leaves the loop for the commit; (b) with
`cur > 0` the call waits (and is blocked for good when no broadcast arrives),
the iteration raising no OOM.  Whenever `Use` ends in the fatal OOM, `cur = 0`. -/
theorem Use_block_or_fatal (env : Env) (inode : InodeID) (size fuel k : Nat) (w : World)
    (tr : List Event) (hsize : size < 2 ^ 64)
    (hover : add64 w.pool.cur size > w.pool.max)
    (hstill : add64 (env.evict k inode (sub64 (add64 w.pool.cur size) w.pool.max) w).1.pool.cur
        size > (env.evict k inode (sub64 (add64 w.pool.cur size) w.pool.max) w).1.pool.max) :
    ((env.evict k inode (sub64 (add64 w.pool.cur size) w.pool.max) w).1.pool.cur = 0 →
      (env.mem (k + 1)).vmErr = false →
      ∃ pool2, recomputeBufferLimit (env.mem (k + 1))
          (env.evict k inode (sub64 (add64 w.pool.cur size) w.pool.max) w).1.pool = some pool2 ∧
        UseLoop env inode size (fuel + 1) k w tr =
          (if size > pool2.max then
              UseResult.oom
                { (env.evict k inode (sub64 (add64 w.pool.cur size) w.pool.max) w).1 with
                  pool := pool2 }
            else
              UseResult.returned
                { (env.evict k inode (sub64 (add64 w.pool.cur size) w.pool.max) w).1 with
                  pool := pool2 },
            tr ++ [Event.evict inode (sub64 (add64 w.pool.cur size) w.pool.max)] ++
              [Event.freeOSMemory, Event.recompute])) ∧
    ((env.evict k inode (sub64 (add64 w.pool.cur size) w.pool.max) w).1.pool.cur ≠ 0 →
      UseLoop env inode size (fuel + 1) k w tr =
        match env.wake k (env.evict k inode (sub64 (add64 w.pool.cur size) w.pool.max) w).1 with
        | none =>
          (UseResult.blocked (env.evict k inode (sub64 (add64 w.pool.cur size) w.pool.max) w).1,
            tr ++ [Event.evict inode (sub64 (add64 w.pool.cur size) w.pool.max)] ++ [Event.wait])
        | some w2 =>
          UseLoop env inode size fuel (k + 1) w2
            (tr ++ [Event.evict inode (sub64 (add64 w.pool.cur size) w.pool.max)] ++
              [Event.wait])) ∧
    (∀ (fuel0 : Nat) (dirty : Bool) (v v1 : World) (tr1 : List Event),
      Use fuel0 env inode size dirty v = (UseResult.oom v1, tr1) → v1.pool.cur = 0) ∧
    (∀ (fuel0 : Nat) (dirty : Bool) (v q : World) (tr1 : List Event),
      UseAdmit fuel0 env inode size v = (UseResult.returned q, tr1) →
      Use fuel0 env inode size dirty v =
        (UseResult.returned { q with pool := UseCommit q.pool size dirty }, tr1)) := by
  refine ⟨?_, ?_, ?_, ?_⟩
  · intro hzero hvm
    obtain ⟨pool2, h2⟩ := recomputeBufferLimit_ok (env.mem (k + 1))
      (env.evict k inode (sub64 (add64 w.pool.cur size) w.pool.max) w).1.pool hvm
    have hcur : pool2.cur = 0 := by rw [(recomputeBufferLimit_some h2).1]; exact hzero
    have hadd : add64 pool2.cur size = size := by
      rw [hcur, add64_of_lt (by omega)]
      omega
    refine ⟨pool2, h2, ?_⟩
    unfold UseLoop
    rw [if_pos hover]
    simp only
    rw [if_pos hstill, if_pos hzero]
    simp only [h2, hadd]
    split_ifs <;> rfl
  · intro hne
    rw [UseLoop, if_pos hover]
    simp only
    rw [if_pos hstill, if_neg hne]
  · intro fuel0 dirty v v1 tr1 h
    exact Use_oom_cur fuel0 env inode size dirty v v1 tr1 h
  · intro fuel0 dirty v q tr1 h
    exact (Use_returned_iff fuel0 env inode size dirty v _ tr1).mpr ⟨q, h, rfl⟩

/-- Witness of C17: request B of the scenario (50 bytes against 60 committed,
ceiling 100) waits and, never woken, stays blocked; a request of 101 bytes on
an empty pool of limit 100 is fatal, without a wait. -/
theorem Use_block_or_fatal_witness :
    UseLoop envIdle 2 50 (7 + 1) 0 scenarioWorld [] =
        (UseResult.blocked scenarioWorld, [Event.evict 2 10, Event.wait]) ∧
    ∃ pool2, recomputeBufferLimit sample1000 (NewBufferPool 100) = some pool2 ∧
      UseLoop envIdle 7 101 (0 + 1) 0 (initWorld 100 0) [] =
        (if 101 > pool2.max then UseResult.oom { initWorld 100 0 with pool := pool2 }
          else UseResult.returned { initWorld 100 0 with pool := pool2 },
          [Event.evict 7 101, Event.freeOSMemory, Event.recompute]) :=
  ⟨(Use_block_or_fatal envIdle 2 50 7 0 scenarioWorld [] (by decide) (by decide)
      (by decide)).2.1 (by decide),
   (Use_block_or_fatal envIdle 7 101 0 0 (initWorld 100 0) [] (by decide) (by decide)
      (by decide)).1 rfl rfl⟩

theorem sub64_pos_of_lt {a b : Nat} (ha : a < 2 ^ 64) (hb : b < a) :
    1 ≤ sub64 a b ∧ sub64 a b = a - b := by
  have h := sub64_of_le (le_of_lt hb) ha
  rw [h]
  omega

/-- The argument of every call of the callback made by the loop: the inode of
the caller and the excess of `cur + size` over the ceiling. -/
theorem UseLoop_evict_events (env : Env) (inode : InodeID) (size : Nat) :
    ∀ (fuel k : Nat) (w : World) (tr : List Event) (e : Event),
      e ∈ (UseLoop env inode size fuel k w tr).2 → e ∈ tr ∨
        ∃ v : World, add64 v.pool.cur size > v.pool.max ∧
          e = Event.evict inode (sub64 (add64 v.pool.cur size) v.pool.max) ∨
        e = Event.freeOSMemory ∨ e = Event.recompute ∨ e = Event.wait := by
  intro fuel
  induction fuel with
  | zero =>
    intro k w tr e he
    exact Or.inl he
  | succ fuel ih =>
    intro k w tr e he
    unfold UseLoop at he
    split at he
    · rename_i hover
      simp only at he
      have hnew : ∀ x, x ∈ tr ++ [Event.evict inode
          (sub64 (add64 w.pool.cur size) w.pool.max)] → x ∈ tr ∨
          ∃ v : World, add64 v.pool.cur size > v.pool.max ∧
            x = Event.evict inode (sub64 (add64 v.pool.cur size) v.pool.max) ∨
          x = Event.freeOSMemory ∨ x = Event.recompute ∨ x = Event.wait := by
        intro x hx
        rcases List.mem_append.mp hx with hx | hx
        · exact Or.inl hx
        · simp only [List.mem_singleton] at hx
          exact Or.inr ⟨w, Or.inl ⟨hover, hx⟩⟩
      split at he
      · split at he
        · have htail : e ∈ tr ++ [Event.evict inode
              (sub64 (add64 w.pool.cur size) w.pool.max)] ++
              [Event.freeOSMemory, Event.recompute] := by
            split at he
            · exact he
            · split at he <;> exact he
          rcases List.mem_append.mp htail with hx | hx
          · exact hnew e hx
          · simp only [List.mem_cons, List.mem_singleton, List.not_mem_nil, or_false] at hx
            rcases hx with hx | hx
            · exact Or.inr ⟨w, Or.inr (Or.inl hx)⟩
            · exact Or.inr ⟨w, Or.inr (Or.inr (Or.inl hx))⟩
        · have hwait : ∀ x, x ∈ tr ++ [Event.evict inode
              (sub64 (add64 w.pool.cur size) w.pool.max)] ++ [Event.wait] → x ∈ tr ∨
              ∃ v : World, add64 v.pool.cur size > v.pool.max ∧
                x = Event.evict inode (sub64 (add64 v.pool.cur size) v.pool.max) ∨
              x = Event.freeOSMemory ∨ x = Event.recompute ∨ x = Event.wait := by
            intro x hx
            rcases List.mem_append.mp hx with hx | hx
            · exact hnew x hx
            · simp only [List.mem_singleton] at hx
              exact Or.inr ⟨w, Or.inr (Or.inr (Or.inr hx))⟩
          split at he
          · exact hwait e he
          · rcases ih _ _ _ e he with hx | hx
            · exact hwait e hx
            · exact Or.inr hx
      · rcases ih _ _ _ e he with hx | hx
        · exact hnew e hx
        · exact Or.inr hx
    · exact Or.inl he

theorem UseLoop_congr (env env2 : Env) (inode : InodeID) (size : Nat)
    (hev : ∀ k v, add64 v.pool.cur size > v.pool.max →
      env.evict k inode (sub64 (add64 v.pool.cur size) v.pool.max) v =
        env2.evict k inode (sub64 (add64 v.pool.cur size) v.pool.max) v)
    (hwake : env.wake = env2.wake) (hmem : env.mem = env2.mem) :
    ∀ (fuel k : Nat) (w : World) (tr : List Event),
      UseLoop env inode size fuel k w tr = UseLoop env2 inode size fuel k w tr := by
  intro fuel
  induction fuel with
  | zero =>
    intro k w tr
    rfl
  | succ fuel ih =>
    intro k w tr
    rw [UseLoop, UseLoop]
    by_cases hover : add64 w.pool.cur size > w.pool.max
    · rw [if_pos hover, if_pos hover]
      simp only [hev k w hover, hwake, hmem, ih]
    · rw [if_neg hover, if_neg hover]

theorem UseLoop_trace_prefix (env : Env) (inode : InodeID) (size : Nat) :
    ∀ (fuel k : Nat) (w : World) (tr : List Event),
      ∃ rest, (UseLoop env inode size fuel k w tr).2 = tr ++ rest := by
  intro fuel
  induction fuel with
  | zero =>
    intro k w tr
    exact ⟨[], by simp [UseLoop]⟩
  | succ fuel ih =>
    intro k w tr
    rw [UseLoop]
    split
    · simp only
      split
      · split
        · split
          · exact ⟨_, by rw [List.append_assoc]⟩
          · split <;> exact ⟨_, by rw [List.append_assoc]⟩
        · split
          · exact ⟨_, by rw [List.append_assoc]⟩
          · obtain ⟨rest, hr⟩ := ih (k + 1) _ (tr ++
              [Event.evict inode (sub64 (add64 w.pool.cur size) w.pool.max)] ++ [Event.wait])
            exact ⟨_, by rw [hr, List.append_assoc, List.append_assoc]⟩
      · obtain ⟨rest, hr⟩ := ih (k + 1) _ (tr ++
          [Event.evict inode (sub64 (add64 w.pool.cur size) w.pool.max)])
        exact ⟨_, by rw [hr, List.append_assoc]⟩
    · exact ⟨[], by simp⟩

theorem UseLoop_first_event (env : Env) (inode : InodeID) (size fuel k : Nat) (w : World)
    (tr : List Event) (hover : add64 w.pool.cur size > w.pool.max) :
    ∃ rest, (UseLoop env inode size (fuel + 1) k w tr).2 =
      tr ++ Event.evict inode (sub64 (add64 w.pool.cur size) w.pool.max) :: rest := by
  rw [UseLoop, if_pos hover]
  simp only
  split
  · split
    · split
      · exact ⟨_, by rw [List.append_assoc]; rfl⟩
      · split <;> exact ⟨_, by rw [List.append_assoc]; rfl⟩
    · split
      · exact ⟨_, by rw [List.append_assoc]; rfl⟩
      · obtain ⟨rest, hr⟩ := UseLoop_trace_prefix env inode size fuel (k + 1) _ (tr ++
          [Event.evict inode (sub64 (add64 w.pool.cur size) w.pool.max)] ++ [Event.wait])
        exact ⟨_, by rw [hr, List.append_assoc, List.append_assoc]; rfl⟩
  · obtain ⟨rest, hr⟩ := UseLoop_trace_prefix env inode size fuel (k + 1) _ (tr ++
      [Event.evict inode (sub64 (add64 w.pool.cur size) w.pool.max)])
    exact ⟨_, by rw [hr, List.append_assoc]; rfl⟩

theorem UseStep1_events {t : MemSample} {pool pool1 : BufferPool} {tr : List Event}
    (h : UseStep1 t pool = some (pool1, tr)) :
    ∀ e, e ∈ tr → e = Event.freeOSMemory ∨ e = Event.recompute := by
  unfold UseStep1 at h
  simp only at h
  split at h
  · split at h
    · simp at h
    · simp only [Option.some.injEq, Prod.mk.injEq] at h
      rw [← h.2]
      intro e he
      simpa using he
  · simp only [Option.some.injEq, Prod.mk.injEq] at h
    rw [← h.2]
    intro e he
    simp at he

theorem Use_trace (fuel : Nat) (env : Env) (inode : InodeID) (size : Nat) (dirty : Bool)
    (w : World) : (Use fuel env inode size dirty w).2 = (UseAdmit fuel env inode size w).2 := by
  unfold Use
  split
  · rename_i h
    rw [h]
  · rfl

/-- Claim C18: every call of the eviction callback made by `Use` is made in a
state with `cur + size > max`, with the inode of the caller and the amount
`cur + size - max` of that state, which is at least 1 (and is the plain
difference when `cur + size` is representable): the events of `Use` say so,
the first event of an iteration that starts over the ceiling is that call,
an iteration that starts at or under the ceiling makes no call, and `Use` does
not depend on what the callback would do on any other argument. -/
theorem Use_evict_arguments (fuel : Nat) (env : Env) (inode : InodeID) (size : Nat)
    (dirty : Bool) (w : World) :
    (∀ i a, Event.evict i a ∈ (Use fuel env inode size dirty w).2 →
      i = inode ∧ 1 ≤ a ∧
      ∃ v : World, add64 v.pool.cur size > v.pool.max ∧
        a = sub64 (add64 v.pool.cur size) v.pool.max ∧
        (v.pool.cur + size < 2 ^ 64 → a = v.pool.cur + size - v.pool.max)) ∧
    (∀ k v tr, add64 v.pool.cur size > v.pool.max →
      ∃ rest, (UseLoop env inode size (fuel + 1) k v tr).2 =
        tr ++ Event.evict inode (sub64 (add64 v.pool.cur size) v.pool.max) :: rest) ∧
    (∀ k v tr, add64 v.pool.cur size ≤ v.pool.max →
      UseLoop env inode size (fuel + 1) k v tr = (UseResult.returned v, tr)) ∧
    (∀ env2 : Env,
      (∀ k v, add64 v.pool.cur size > v.pool.max →
        env.evict k inode (sub64 (add64 v.pool.cur size) v.pool.max) v =
          env2.evict k inode (sub64 (add64 v.pool.cur size) v.pool.max) v) →
      env.wake = env2.wake → env.mem = env2.mem →
      Use fuel env inode size dirty w = Use fuel env2 inode size dirty w) := by
  refine ⟨?_, ?_, ?_, ?_⟩
  · intro i a he
    rw [Use_trace] at he
    have hev : ∃ v : World, add64 v.pool.cur size > v.pool.max ∧
        Event.evict i a = Event.evict inode (sub64 (add64 v.pool.cur size) v.pool.max) := by
      unfold UseAdmit at he
      split at he
      · simp at he
      · rename_i pool1 tr0 h1
        rcases UseLoop_evict_events env inode size _ _ _ _ _ he with hx | ⟨v, hx⟩
        · rcases UseStep1_events h1 _ hx with hx | hx <;> cases hx
        · rcases hx with ⟨hover, hx⟩ | hx | hx | hx
          · exact ⟨v, hover, hx⟩
          · cases hx
          · cases hx
          · cases hx
    obtain ⟨v, hover, hx⟩ := hev
    simp only [Event.evict.injEq] at hx
    have hlt := add64_lt v.pool.cur size
    have hs := sub64_pos_of_lt hlt hover
    refine ⟨hx.1, by rw [hx.2]; exact hs.1, v, hover, hx.2, ?_⟩
    intro hno
    rw [hx.2, hs.2, add64_of_lt hno]
  · intro k v tr hover
    exact UseLoop_first_event env inode size fuel k v tr hover
  · intro k v tr hfit
    rw [UseLoop, if_neg (by omega)]
  · intro env2 hev hwake hmem
    unfold Use UseAdmit
    rw [hmem]
    cases UseStep1 (env2.mem 0) w.pool with
    | none => rfl
    | some x =>
      simp only [UseLoop_congr env env2 inode size hev hwake hmem]

/-- Witness of C18: with ceiling 100 and 60 bytes committed, the request of 50
bytes of owner 2 calls the callback with (2, 10). -/
theorem Use_evict_arguments_witness :
    (Use 8 envRelease20 2 50 false scenarioWorld).2 = [Event.evict 2 10, Event.wait] ∧
    (2 = 2 ∧ 1 ≤ 10 ∧
      ∃ v : World, add64 v.pool.cur 50 > v.pool.max ∧
        10 = sub64 (add64 v.pool.cur 50) v.pool.max ∧
        (v.pool.cur + 50 < 2 ^ 64 → 10 = v.pool.cur + 50 - v.pool.max)) :=
  ⟨by decide,
   (Use_evict_arguments 8 envRelease20 2 50 false scenarioWorld).1 2 10 (by decide)⟩

/-! ## The 16-request throttle -/

theorem UseLoop_keeps_recompute (P : World → Prop) (env : Env) (inode : InodeID) (size : Nat)
    (hre : ∀ v t (pool2 : BufferPool), P v → recomputeBufferLimit t v.pool = some pool2 →
      P { v with pool := pool2 })
    (henv : EnvKeeps P env) :
    ∀ (fuel k : Nat) (w : World) (tr : List Event) (q : World) (tr1 : List Event),
      P w → UseLoop env inode size fuel k w tr = (UseResult.returned q, tr1) → P q := by
  intro fuel
  induction fuel with
  | zero =>
    intro k w tr q tr1 _ h
    simp [UseLoop] at h
  | succ fuel ih =>
    intro k w tr q tr1 hw h
    have hev := henv.1 k inode (sub64 (add64 w.pool.cur size) w.pool.max) w hw
    unfold UseLoop at h
    split at h
    · simp only at h
      split at h
      · split at h
        · split at h
          · simp at h
          · rename_i pool2 hrec
            split at h
            · simp at h
            · simp only [Prod.mk.injEq, UseResult.returned.injEq] at h
              rw [← h.1]
              exact hre _ _ pool2 hev hrec
        · split at h
          · simp at h
          · rename_i w2 hwake
            exact ih _ _ _ _ _ (henv.2 k _ w2 hev hwake) h
      · exact ih _ _ _ _ _ hev h
    · simp only [Prod.mk.injEq, UseResult.returned.injEq] at h
      rw [← h.1]
      exact hw

/-- Step 1 of `Use` on a counter below 16: the counter goes up by one, and the
ceiling is recomputed (and the counter reset) exactly when it reaches 16. -/
theorem UseStep1_counter (t : MemSample) (pool pool1 : BufferPool) (tr : List Event)
    (hc : pool.requests ≤ 15) (h : UseStep1 t pool = some (pool1, tr)) :
    pool1.requests = (pool.requests + 1) % 16 ∧ pool1.requests ≤ 15 ∧
      (pool.requests = 15 → tr = [Event.freeOSMemory, Event.recompute] ∧
        ∃ pool2, recomputeBufferLimit t { pool with requests := 16 } = some pool2 ∧
          pool1 = { pool2 with requests := 0 }) ∧
      (pool.requests < 15 → tr = [] ∧ pool1 = { pool with requests := pool.requests + 1 }) := by
  have hadd : add64 pool.requests 1 = pool.requests + 1 := add64_of_lt (by omega)
  unfold UseStep1 at h
  simp only [hadd] at h
  split at h
  · rename_i h16
    have h15 : pool.requests = 15 := by omega
    split at h
    · simp at h
    · rename_i pool2 hrec
      simp only [Option.some.injEq, Prod.mk.injEq] at h
      rw [← h.1, ← h.2]
      refine ⟨by simp [h15], by simp, fun _ => ⟨rfl, pool2, ?_, rfl⟩, fun hlt => by omega⟩
      rw [h15] at hrec
      exact hrec
  · rename_i h16
    simp only [Option.some.injEq, Prod.mk.injEq] at h
    rw [← h.1, ← h.2]
    have hlt : pool.requests < 15 := by omega
    refine ⟨?_, ?_, fun h15 => by omega, fun _ => ⟨rfl, rfl⟩⟩
    · show pool.requests + 1 = (pool.requests + 1) % 16
      omega
    · show pool.requests + 1 ≤ 15
      omega

/-- A `Use` that returns leaves the counter as its step 1 set it: neither the
loop (recomputation on the zero-in-flight path included) nor the commit
touches it. -/
theorem Use_counter (fuel : Nat) (env : Env) (inode : InodeID) (size : Nat) (dirty : Bool)
    (w w1 : World) (tr : List Event) (henv : EnvKeepsRequests env)
    (hc : w.pool.requests ≤ 15)
    (h : Use fuel env inode size dirty w = (UseResult.returned w1, tr)) :
    w1.pool.requests = (w.pool.requests + 1) % 16 := by
  obtain ⟨q, hq, rfl⟩ := (Use_returned_iff fuel env inode size dirty w w1 tr).mp h
  show (UseCommit q.pool size dirty).requests = _
  rw [(UseCommit_fields q.pool size dirty).2.2.2.2.2]
  unfold UseAdmit at hq
  split at hq
  · simp at hq
  · rename_i pool1 tr0 h1
    have hs := UseStep1_counter (env.mem 0) w.pool pool1 tr0 hc h1
    rw [← hs.1]
    exact UseLoop_keeps_recompute (fun v => v.pool.requests = pool1.requests) env inode size
      (fun v t pool2 hv hrec => by
        show pool2.requests = pool1.requests
        rw [(recomputeBufferLimit_some hrec).2.2.2.2.1]
        exact hv)
      (henv pool1.requests) _ _ _ _ _ _ rfl hq

theorem runCalls_counter :
    ∀ (calls : List Call) (w : World) (c : Nat), w.pool.requests = c % 16 → usesOnly calls →
      ∀ n wb, (w :: runCalls w calls)[n]? = some wb → wb.pool.requests = (c + n) % 16 := by
  intro calls
  induction calls with
  | nil =>
    intro w c hw _ n wb hn
    cases n with
    | zero =>
      simp only [List.getElem?_cons_zero, Option.some.injEq] at hn
      rw [← hn, hw]
      rfl
    | succ n => simp [runCalls] at hn
  | cons call calls ih =>
    intro w c hw hu n wb hn
    cases n with
    | zero =>
      simp only [List.getElem?_cons_zero, Option.some.injEq] at hn
      rw [← hn, hw]
      rfl
    | succ n =>
      simp only [List.getElem?_cons_succ] at hn
      unfold runCalls at hn
      cases hrun : runCall w call with
      | none => simp [hrun] at hn
      | some w1 =>
        simp only [hrun] at hn
        cases call with
        | use fuel env inode size dirty =>
          obtain ⟨tr, hUse⟩ := runCall_use_some hrun
          have h1 := Use_counter fuel env inode size dirty w w1 tr hu.1
            (by rw [hw]; omega) hUse
          have := ih w1 (c + 1) (by rw [h1, hw]; omega) hu.2 n wb hn
          rw [this]
          congr 1
          omega
        | free size dirty => exact absurd hu (by simp [usesOnly])
        | freeUnlocked size dirty => exact absurd hu (by simp [usesOnly])

/-- The loop of `Use` leaves the request counter alone, however it ends. -/
theorem UseLoop_requests (env : Env) (inode : InodeID) (size : Nat)
    (henv : EnvKeepsRequests env) :
    ∀ (fuel k : Nat) (w : World) (tr : List Event),
      (UseLoop env inode size fuel k w tr).1.world.pool.requests = w.pool.requests := by
  intro fuel
  induction fuel with
  | zero =>
    intro k w tr
    rfl
  | succ fuel ih =>
    intro k w tr
    have hev : (env.evict k inode (sub64 (add64 w.pool.cur size) w.pool.max) w).1.pool.requests =
        w.pool.requests := (henv w.pool.requests).1 k inode _ w rfl
    rw [UseLoop]
    split
    · simp only
      split
      · split
        · split
          · exact hev
          · rename_i pool2 hrec
            have hr := (recomputeBufferLimit_some hrec).2.2.2.2.1
            split
            · show pool2.requests = w.pool.requests
              rw [hr, hev]
            · show pool2.requests = w.pool.requests
              rw [hr, hev]
        · split
          · exact hev
          · rename_i w2 hwake
            rw [ih]
            exact (henv w.pool.requests).2 k _ w2 hev hwake
      · rw [ih]
        exact hev
    · rfl

theorem Use_world_requests (fuel : Nat) (env : Env) (inode : InodeID) (size : Nat)
    (dirty : Bool) (w : World) :
    (Use fuel env inode size dirty w).1.world.pool.requests =
      (UseAdmit fuel env inode size w).1.world.pool.requests := by
  unfold Use
  split
  · rename_i w1 tr h
    rw [h]
    exact (UseCommit_fields w1.pool size dirty).2.2.2.2.2
  · rfl

/-- A `Use` whose step-1 telemetry query succeeds leaves the counter as its
step 1 set it, whether it returns, parks or ends in a fatal condition. -/
theorem Use_counter_any (fuel : Nat) (env : Env) (inode : InodeID) (size : Nat) (dirty : Bool)
    (w : World) (henv : EnvKeepsRequests env) (hmem : (env.mem 0).vmErr = false)
    (hc : w.pool.requests ≤ 15) :
    (Use fuel env inode size dirty w).1.world.pool.requests = (w.pool.requests + 1) % 16 := by
  rw [Use_world_requests]
  obtain ⟨pool1, tr0, h1, _⟩ := UseStep1_ok (env.mem 0) w.pool hmem
  have hs := UseStep1_counter (env.mem 0) w.pool pool1 tr0 hc h1
  unfold UseAdmit
  rw [h1]
  simp only
  rw [UseLoop_requests env inode size henv]
  exact hs.1

theorem runAll_length : ∀ (calls : List Call) (w : World), (runAll w calls).length = calls.length := by
  intro calls
  induction calls with
  | nil =>
    intro w
    rfl
  | cons c cs ih =>
    intro w
    simp [runAll, ih]

theorem runAll_counter :
    ∀ (calls : List Call) (w : World) (c : Nat), w.pool.requests = c % 16 → usesOnly calls →
      step1Succeeds calls →
      ∀ n wb, (w :: runAll w calls)[n]? = some wb → wb.pool.requests = (c + n) % 16 := by
  intro calls
  induction calls with
  | nil =>
    intro w c hw _ _ n wb hn
    cases n with
    | zero =>
      simp only [List.getElem?_cons_zero, Option.some.injEq] at hn
      rw [← hn, hw]
      rfl
    | succ n => simp [runAll] at hn
  | cons call calls ih =>
    intro w c hw hu hm n wb hn
    cases n with
    | zero =>
      simp only [List.getElem?_cons_zero, Option.some.injEq] at hn
      rw [← hn, hw]
      rfl
    | succ n =>
      simp only [List.getElem?_cons_succ] at hn
      unfold runAll at hn
      cases call with
      | use fuel env inode size dirty =>
        have h1 : (afterCall w (Call.use fuel env inode size dirty)).pool.requests =
            (w.pool.requests + 1) % 16 :=
          Use_counter_any fuel env inode size dirty w hu.1 hm.1 (by rw [hw]; omega)
        have := ih (afterCall w (Call.use fuel env inode size dirty)) (c + 1)
          (by rw [h1, hw]; omega) hu.2 hm.2 n wb hn
        rw [this]
        congr 1
        omega
      | free size dirty => exact absurd hu (by simp [usesOnly])
      | freeUnlocked size dirty => exact absurd hu (by simp [usesOnly])

theorem seventeenUses_usesOnly : usesOnly seventeenUses := by
  simp only [seventeenUses, List.replicate, usesOnly, and_true]
  simp only [and_self]
  exact fun c => envIdle_keeps _

theorem envNoTelemetry_keeps (P : World → Prop) : EnvKeeps P envNoTelemetry := by
  constructor
  · intro k inode size v hv
    exact hv
  · intro k v v1 _ h
    simp [envNoTelemetry] at h

theorem failingSixteenth_usesOnly : usesOnly failingSixteenth := by
  simp only [failingSixteenth, List.replicate, List.cons_append, List.nil_append, usesOnly,
    and_true]
  refine ⟨?_, ?_, ?_, ?_, ?_, ?_, ?_, ?_, ?_, ?_, ?_, ?_, ?_, ?_, ?_,
    fun c => envNoTelemetry_keeps _, ?_⟩
  all_goals exact fun c => envIdle_keeps _

/-- Claim C20 as stated fails when the telemetry query of a sixteenth call
fails: `pool.requests++` has run, `maxMemToUse` panics before the reset, and
the pool is left with `requests = 16`; step 1 of the seventeenth call then
recomputes the ceiling as well. -/
theorem Use_throttle_counterexample :
    usesOnly failingSixteenth ∧
    (runAll (initWorld 0 0) failingSixteenth).map (fun w => w.pool.requests) =
      [1, 2, 3, 4, 5, 6, 7, 8, 9, 10, 11, 12, 13, 14, 15, 16, 0] ∧
    (∃ w15 w16, (initWorld 0 0 :: runAll (initWorld 0 0) failingSixteenth)[15]? = some w15 ∧
      (initWorld 0 0 :: runAll (initWorld 0 0) failingSixteenth)[16]? = some w16 ∧
      (Use 1 envNoTelemetry 1 1 false w15).1 = UseResult.memPanic w16 ∧
      w16.pool.requests = 16 ∧
      (UseStep1 sample1000 w16.pool).map Prod.snd =
        some [Event.freeOSMemory, Event.recompute]) ∧
    ¬ (∀ calls : List Call, usesOnly calls →
        ∀ w, w ∈ runAll (initWorld 0 0) calls → w.pool.requests ≤ 15) := by
  have h2 : (runAll (initWorld 0 0) failingSixteenth).map (fun w => w.pool.requests) =
      [1, 2, 3, 4, 5, 6, 7, 8, 9, 10, 11, 12, 13, 14, 15, 16, 0] := by decide
  refine ⟨failingSixteenth_usesOnly, h2, ?_, ?_⟩
  · refine ⟨(runAll (initWorld 0 0) failingSixteenth).getD 14 (initWorld 0 0),
      (runAll (initWorld 0 0) failingSixteenth).getD 15 (initWorld 0 0), ?_, ?_, ?_, ?_, ?_⟩
    · decide
    · decide
    · decide
    · decide
    · decide
  · intro hall
    have hmem : ∀ x, x ∈ (runAll (initWorld 0 0) failingSixteenth).map
        (fun w => w.pool.requests) → x ≤ 15 := by
      intro x hx
      obtain ⟨w, hw, rfl⟩ := List.mem_map.mp hx
      exact hall failingSixteenth failingSixteenth_usesOnly w hw
    rw [h2] at hmem
    have := hmem 16 (by simp)
    omega

/-- Claim C20, amended: starting with `requests = 0`, along any sequence of
`Use` calls whose step-1 telemetry query succeeds (none of their callbacks
touching the counter; the calls may return, park or end in the fatal OOM), the
call number `n + 1` starts with `requests = n % 16`; its step 1 recomputes the
ceiling and resets the counter exactly when `n + 1` is a multiple of 16, and
otherwise only counts the request; the counter is at most 15 after step 1 of
every call.  The recomputation itself (the one of the zero-in-flight path
included) leaves the counter as it is. -/
theorem Use_throttle (w0 : World) (calls : List Call) (h0 : w0.pool.requests = 0)
    (hcalls : usesOnly calls) (hmem : step1Succeeds calls) :
    (runAll w0 calls).length = calls.length ∧
    (∀ n wb, (w0 :: runAll w0 calls)[n]? = some wb →
      wb.pool.requests = n % 16 ∧
      ∀ t pool1 tr, UseStep1 t wb.pool = some (pool1, tr) →
        pool1.requests = (n + 1) % 16 ∧ pool1.requests ≤ 15 ∧
        ((n + 1) % 16 = 0 → tr = [Event.freeOSMemory, Event.recompute] ∧
          ∃ pool2, recomputeBufferLimit t { wb.pool with requests := 16 } = some pool2 ∧
            pool1 = { pool2 with requests := 0 }) ∧
        ((n + 1) % 16 ≠ 0 → tr = [] ∧
          pool1 = { wb.pool with requests := wb.pool.requests + 1 })) ∧
    (∀ t (pool pool2 : BufferPool), recomputeBufferLimit t pool = some pool2 →
      pool2.requests = pool.requests) := by
  refine ⟨runAll_length calls w0, ?_,
    fun t pool pool2 h => (recomputeBufferLimit_some h).2.2.2.2.1⟩
  intro n wb hn
  have hreq : wb.pool.requests = n % 16 := by
    have := runAll_counter calls w0 0 (by rw [h0]) hcalls hmem n wb hn
    rw [this]
    congr 1
    omega
  refine ⟨hreq, ?_⟩
  intro t pool1 tr hs
  have hc := UseStep1_counter t wb.pool pool1 tr (by rw [hreq]; omega) hs
  refine ⟨by rw [hc.1, hreq]; omega, hc.2.1, ?_, ?_⟩
  · intro hmod
    exact hc.2.2.1 (by rw [hreq]; omega)
  · intro hmod
    exact hc.2.2.2 (by rw [hreq]; omega)

theorem seventeenUses_step1Succeeds : step1Succeeds seventeenUses := by
  simp only [seventeenUses, List.replicate, step1Succeeds, and_true]
  simp only [and_self]
  rfl

/-- Witness of C20 (amended): along seventeen admissions of one byte the counter
reads 1, ..., 15, 0, 1 after the calls, and the sixteenth call starts with 15. -/
theorem Use_throttle_witness :
    (runAll (initWorld 0 0) seventeenUses).map (fun w => w.pool.requests) =
      [1, 2, 3, 4, 5, 6, 7, 8, 9, 10, 11, 12, 13, 14, 15, 0, 1] ∧
    ∀ wb, (initWorld 0 0 :: runAll (initWorld 0 0) seventeenUses)[15]? = some wb →
      wb.pool.requests = 15 % 16 :=
  ⟨by decide,
   fun wb h => ((Use_throttle (initWorld 0 0) seventeenUses rfl seventeenUses_usesOnly
      seventeenUses_step1Succeeds).2.1 15 wb h).1⟩

/-! ## Stream adapter: reading -/

theorem ReadLoop_zero_length_diverges :
    ∀ fuel : Nat, ReadLoop fuel (NewMultiReader abcdef) [] 0 0 = ReadResult.outOfFuel := by
  intro fuel
  induction fuel with
  | zero => rfl
  | succ fuel ih =>
    have hstep : ReadLoop (fuel + 1) (NewMultiReader abcdef) [] 0 0 =
        ReadLoop fuel (NewMultiReader abcdef) [] 0 0 := by
      rw [ReadLoop]
      rfl
    rw [hstep, ih]

set_option maxRecDepth 8000 in
/-- Claim C13, evaluated on the slices `["ab", "cde", "f"]` of the
specification and a fresh reader.  With a destination of one byte (length and
capacity 1) `Read` copies `a` and then panics on `buf[1:2]`, whatever the fuel;
with a destination of length 0 the loop never ends; with a destination of
length 1 and capacity 10 it returns `n = 6`, beyond the length of the
destination.  The variable `remaining` is never decreased and the loop does
not stop when the destination is full. -/
theorem Read_short_destination :
    (∀ fuel : Nat, 2 ≤ fuel → Read fuel (NewMultiReader abcdef) [0] 1 = ReadResult.panic) ∧
    (∀ fuel : Nat, Read fuel (NewMultiReader abcdef) [] 0 = ReadResult.outOfFuel) ∧
    Read 7 (NewMultiReader abcdef) (List.replicate 10 0) 1 =
      ReadResult.ok { NewMultiReader abcdef with idx := 3, pos := 6 }
        [97, 98, 99, 100, 101, 102, 0, 0, 0, 0] 6 false := by
  refine ⟨?_, ?_, by decide⟩
  · intro fuel hfuel
    obtain ⟨f, rfl⟩ : ∃ f, fuel = f + 2 := ⟨fuel - 2, by omega⟩
    rfl
  · intro fuel
    have h := ReadLoop_zero_length_diverges fuel
    unfold Read
    rw [if_neg (by decide)]
    exact h

/-! ## Stream adapter: positions -/

theorem addInt64_of_range {a b : Int} (hlo : -2 ^ 63 ≤ a + b) (hhi : a + b < 2 ^ 63) :
    addInt64 a b = a + b := by
  unfold addInt64
  omega

theorem totalLen_nil : totalLen [] = 0 := rfl

theorem totalLen_cons (b : List Byte) (bs : List (List Byte)) :
    totalLen (b :: bs) = b.length + totalLen bs := by
  simp [totalLen]

theorem totalLen_append (as bs : List (List Byte)) :
    totalLen (as ++ bs) = totalLen as + totalLen bs := by
  simp [totalLen]

theorem totalLen_eq_length_flatten (bs : List (List Byte)) :
    totalLen bs = bs.flatten.length := by
  rw [List.length_flatten]
  rfl

theorem getElem?_append_length_cons {α : Type} (pre post : List α) (x : α) :
    (pre ++ x :: post)[pre.length]? = some x := by
  rw [List.getElem?_append_right (le_refl _)]
  simp

theorem getElem?_append_length_nil {α : Type} (pre : List α) :
    (pre ++ [])[pre.length]? = none := by
  simp

theorem NewMultiReader_size_fold :
    ∀ (bs : List (List Byte)) (acc : Int), 0 ≤ acc → acc + (totalLen bs : Int) < 2 ^ 63 →
      bs.foldl (fun size b => addInt64 size (b.length : Int)) acc = acc + (totalLen bs : Int) := by
  intro bs
  induction bs with
  | nil =>
    intro acc _ _
    simp [totalLen]
  | cons b bs ih =>
    intro acc h0 hlt
    rw [totalLen_cons] at hlt
    push_cast at hlt
    rw [List.foldl_cons, addInt64_of_range (by omega) (by omega), ih _ (by omega) (by omega),
      totalLen_cons]
    push_cast
    omega

theorem NewMultiReader_size (bs : List (List Byte)) (h : totalLen bs < 2 ^ 63) :
    (NewMultiReader bs).size = (totalLen bs : Int) := by
  unfold NewMultiReader
  simp only
  rw [NewMultiReader_size_fold bs 0 (le_refl _) (by omega)]
  omega

/-- The loop of `Seek`, started on a slice boundary at or before the target:
it ends with the reader on the target, located by a slice index and an
offset inside that slice. -/
theorem SeekLoop_spec :
    ∀ (rest pre : List (List Byte)) (r : MultiReader) (offset : Int) (fuel : Nat),
      r.buffers = pre ++ rest → r.idx = pre.length → r.pos = (totalLen pre : Int) →
      r.bufPos = 0 → r.pos ≤ offset → offset ≤ (totalLen (pre ++ rest) : Int) →
      totalLen (pre ++ rest) < 2 ^ 63 → rest.length + 2 ≤ fuel →
      ∃ r1 pre1 rest1, SeekLoop fuel r offset = SeekResult.ok r1 offset ∧ r1.pos = offset ∧
        r1.buffers = r.buffers ∧ r1.size = r.size ∧ r.buffers = pre1 ++ rest1 ∧
        r1.idx = pre1.length ∧ (totalLen pre1 : Int) + (r1.bufPos : Int) = offset ∧
        (r1.bufPos = 0 ∨ ∃ cur rest2, rest1 = cur :: rest2 ∧ r1.bufPos < cur.length) := by
  intro rest
  induction rest with
  | nil =>
    intro pre r offset fuel hb hi hp hbp hle hoff _ hfuel
    obtain ⟨f, rfl⟩ : ∃ f, fuel = f + 1 := ⟨fuel - 1, by omega⟩
    rw [List.append_nil] at hoff
    have heq : r.pos = offset := by omega
    refine ⟨r, pre, [], ?_, heq, rfl, rfl, hb, hi, ?_, Or.inl hbp⟩
    · rw [SeekLoop, if_neg (by omega), heq]
    · rw [hbp, ← hp, heq]
      simp
  | cons cur rest ih =>
    intro pre r offset fuel hb hi hp hbp hle hoff htot hfuel
    obtain ⟨f, rfl⟩ : ∃ f, fuel = f + 1 := ⟨fuel - 1, by omega⟩
    by_cases hlt : r.pos < offset
    · have hcur : r.buffers[r.idx]? = some cur := by
        rw [hb, hi]
        exact getElem?_append_length_cons pre rest cur
      rw [totalLen_append, totalLen_cons] at hoff htot
      push_cast at hoff
      have hend : addInt64 r.pos (cur.length : Int) = r.pos + (cur.length : Int) :=
        addInt64_of_range (by omega) (by omega)
      rw [SeekLoop, if_pos hlt]
      simp only [hcur, hend]
      by_cases hadv : r.pos + (cur.length : Int) ≤ offset
      · rw [if_pos hadv]
        obtain ⟨r1, pre1, rest1, h1, h2, h3, h4, h5, h6, h7, h8⟩ :=
          ih (pre ++ [cur]) { r with pos := r.pos + (cur.length : Int), idx := r.idx + 1 }
            offset f
            (by simp [hb]) (by simp [hi])
            (by
              show r.pos + (cur.length : Int) = _
              rw [totalLen_append, totalLen_cons, totalLen_nil, hp]
              push_cast
              omega)
            hbp hadv
            (by
              rw [totalLen_append, totalLen_append, totalLen_cons, totalLen_nil]
              push_cast
              omega)
            (by
              rw [totalLen_append, totalLen_append, totalLen_cons, totalLen_nil]
              omega)
            (by simp only [List.length_cons] at hfuel; omega)
        exact ⟨r1, pre1, rest1, h1, h2, h3, h4, h5, h6, h7, h8⟩
      · rw [if_neg hadv]
        simp only [List.length_cons] at hfuel
        obtain ⟨g, rfl⟩ : ∃ g, f = g + 1 := ⟨f - 1, by omega⟩
        have hsub : addInt64 offset (-r.pos) = offset - r.pos := by
          rw [addInt64_of_range (by omega) (by omega)]
          omega
        refine ⟨{ r with bufPos := (offset - r.pos).toNat, pos := offset }, pre, cur :: rest,
          ?_, rfl, rfl, rfl, hb, hi, ?_, Or.inr ⟨cur, rest, rfl, ?_⟩⟩
        · rw [SeekLoop, if_neg (by simp), hsub]
        · show (totalLen pre : Int) + (((offset - r.pos).toNat : Nat) : Int) = offset
          omega
        · show (offset - r.pos).toNat < cur.length
          omega
    · have heq : r.pos = offset := by omega
      refine ⟨r, pre, cur :: rest, ?_, heq, rfl, rfl, hb, hi, ?_, Or.inl hbp⟩
      · rw [SeekLoop, if_neg hlt, heq]
      · rw [hbp, ← hp, heq]
        simp

/-- The result of `Seek` on a reader whose `size` is the sum of the slice
lengths: the reader is on the clamped target, located by a slice index and an
offset inside that slice. -/
theorem Seek_located (fuel : Nat) (r : MultiReader) (offset whence t : Int)
    (hsize : r.size = (totalLen r.buffers : Int)) (htot : totalLen r.buffers < 2 ^ 63)
    (hfuel : r.buffers.length + 2 ≤ fuel)
    (ht : t = if whence = 2 then offset + (totalLen r.buffers : Int)
      else if whence = 1 then offset + r.pos else offset)
    (hlo : -2 ^ 63 ≤ t) (hhi : t < 2 ^ 63) :
    ∃ r1 pre1 rest1, Seek fuel r offset whence =
        SeekResult.ok r1 (min (max t 0) (totalLen r.buffers : Int)) ∧
      r1.pos = min (max t 0) (totalLen r.buffers : Int) ∧
      r1.buffers = r.buffers ∧ r1.size = r.size ∧ r.buffers = pre1 ++ rest1 ∧
      r1.idx = pre1.length ∧
      (totalLen pre1 : Int) + (r1.bufPos : Int) = min (max t 0) (totalLen r.buffers : Int) ∧
      (r1.bufPos = 0 ∨ ∃ cur rest2, rest1 = cur :: rest2 ∧ r1.bufPos < cur.length) := by
  have h1 : (if whence = 2 then addInt64 offset r.size
      else if whence = 1 then addInt64 offset r.pos else offset) = t := by
    rw [ht]
    split_ifs with h2 h1
    · rw [if_pos h2] at ht
      rw [hsize, addInt64_of_range (by omega) (by omega)]
    · rw [if_neg h2, if_pos h1] at ht
      rw [addInt64_of_range (by omega) (by omega)]
    · rfl
  have h3 : (if (if t > r.size then r.size else t) < 0 then 0
      else (if t > r.size then r.size else t)) = min (max t 0) (totalLen r.buffers : Int) := by
    rw [hsize]
    split_ifs <;> omega
  unfold Seek
  simp only [h1, h3]
  have hmin0 : (0 : Int) ≤ min (max t 0) (totalLen r.buffers : Int) := by omega
  have hminL : min (max t 0) (totalLen r.buffers : Int) ≤ (totalLen r.buffers : Int) := by omega
  obtain ⟨r1, pre1, rest1, g1, g2, g3, g4, g5, g6, g7, g8⟩ :=
    SeekLoop_spec r.buffers [] { r with idx := 0, pos := 0, bufPos := 0 }
      (min (max t 0) (totalLen r.buffers : Int)) fuel rfl rfl rfl rfl hmin0
      (by rw [List.nil_append]; exact hminL) (by rw [List.nil_append]; exact htot) hfuel
  exact ⟨r1, pre1, rest1, g1, g2, g3, g4, g5, g6, g7, g8⟩

/-- Claim C15: on a reader whose `Len()` is the sum `L` of the slice lengths,
for every position, offset and `whence` whose target `t` (`offset`,
`pos + offset` or `L + offset`) is an `int64`, `Seek` returns, given fuel for
one iteration per slice and two more, without indexing out of range; it
returns `min (max t 0) L` and leaves the reader at that position. -/
theorem Seek_clamps (fuel : Nat) (r : MultiReader) (offset whence t : Int)
    (hsize : r.size = (totalLen r.buffers : Int)) (htot : totalLen r.buffers < 2 ^ 63)
    (hfuel : r.buffers.length + 2 ≤ fuel)
    (ht : t = if whence = 2 then offset + (totalLen r.buffers : Int)
      else if whence = 1 then offset + r.pos else offset)
    (hlo : -2 ^ 63 ≤ t) (hhi : t < 2 ^ 63) :
    ∃ r1, Seek fuel r offset whence =
        SeekResult.ok r1 (min (max t 0) (totalLen r.buffers : Int)) ∧
      r1.pos = min (max t 0) (totalLen r.buffers : Int) ∧
      r1.buffers = r.buffers ∧ r1.Len = r.Len ∧ r.Len = (totalLen r.buffers : Int) ∧
      (0 : Int) ≤ r1.pos ∧ r1.pos ≤ r1.Len := by
  obtain ⟨r1, _, _, g1, g2, g3, g4, _⟩ :=
    Seek_located fuel r offset whence t hsize htot hfuel ht hlo hhi
  refine ⟨r1, g1, g2, g3, g4, hsize, ?_, ?_⟩
  · rw [g2]
    omega
  · show r1.pos ≤ r1.size
    rw [g2, g4, hsize]
    omega

/-- Witness of C15: on `["ab", "cde", "f"]`, seeking to 10 from the start
clamps to 6, and seeking to -1 from the end gives 5. -/
theorem Seek_clamps_witness :
    (∃ r1, Seek 5 (NewMultiReader abcdef) 10 0 = SeekResult.ok r1 (min (max 10 0) 6) ∧
      r1.pos = min (max 10 0) 6) ∧
    Seek 5 (NewMultiReader abcdef) 10 0 =
      SeekResult.ok { NewMultiReader abcdef with idx := 3, pos := 6 } 6 ∧
    Seek 5 (NewMultiReader abcdef) (-1) 2 =
      SeekResult.ok { NewMultiReader abcdef with idx := 2, pos := 5 } 5 :=
  ⟨match Seek_clamps 5 (NewMultiReader abcdef) 10 0 10 (by decide) (by decide) (by decide)
      (by decide) (by decide) (by decide) with
    | ⟨r1, h1, h2, _⟩ => ⟨r1, h1, h2⟩,
   by decide, by decide⟩

/-- The loop of `Read` with room for everything that is left: it copies the
rest of the current slice and all the following slices, and ends with every
slice consumed. -/
theorem ReadLoop_spec :
    ∀ (rest pre : List (List Byte)) (r : MultiReader) (data : List Byte)
      (remaining n fuel : Nat),
      r.buffers = pre ++ rest → r.idx = pre.length →
      (r.bufPos = 0 ∨ ∃ cur rest2, rest = cur :: rest2 ∧ r.bufPos < cur.length) →
      totalLen rest - r.bufPos ≤ remaining →
      n + (totalLen rest - r.bufPos) ≤ data.length →
      rest.length + 1 ≤ fuel →
      ∃ r1, ReadLoop fuel r data remaining n =
          ReadResult.ok r1
            (data.take n ++ rest.flatten.drop r.bufPos ++
              data.drop (n + (totalLen rest - r.bufPos)))
            (n + (totalLen rest - r.bufPos)) false ∧
        r1.buffers = r.buffers ∧ r1.idx = r.buffers.length ∧ r1.size = r.size := by
  intro rest
  induction rest with
  | nil =>
    intro pre r data remaining n fuel hb hi _ _ _ hfuel
    obtain ⟨f, rfl⟩ : ∃ f, fuel = f + 1 := ⟨fuel - 1, by omega⟩
    have hnone : r.buffers[r.idx]? = none := by
      rw [hb, hi]
      exact getElem?_append_length_nil pre
    refine ⟨r, ?_, rfl, ?_, rfl⟩
    · rw [ReadLoop]
      simp only [hnone, totalLen_nil, List.flatten_nil, List.drop_nil, List.append_nil,
        Nat.zero_sub, Nat.add_zero, List.take_append_drop]
    · rw [hi, hb]
      simp
  | cons cur rest ih =>
    intro pre r data remaining n fuel hb hi hbp hrem hcap hfuel
    obtain ⟨f, rfl⟩ : ∃ f, fuel = f + 1 := ⟨fuel - 1, by omega⟩
    have hcur : r.buffers[r.idx]? = some cur := by
      rw [hb, hi]
      exact getElem?_append_length_cons pre rest cur
    have hle : r.bufPos ≤ cur.length := by
      rcases hbp with h0 | ⟨c, r2, hc, hlt⟩
      · omega
      · simp only [List.cons.injEq] at hc
        rw [hc.1]
        omega
    rw [totalLen_cons] at hrem hcap
    have hl : (if (cur.length : Int) - (r.bufPos : Int) > (remaining : Int) then (remaining : Int)
        else (cur.length : Int) - (r.bufPos : Int)) = ((cur.length - r.bufPos : Nat) : Int) := by
      rw [if_neg (by omega)]
      omega
    have hdrop : ((cur.drop r.bufPos).take (cur.length - r.bufPos)) = cur.drop r.bufPos :=
      List.take_of_length_le (by simp)
    have hlen1 : (data.take n ++ cur.drop r.bufPos).length = n + (cur.length - r.bufPos) := by
      rw [List.length_append, List.length_take, List.length_drop]
      omega
    obtain ⟨r1, h1, h2, h3, h4⟩ :=
      ih (pre ++ [cur])
        { r with pos := addInt64 r.pos ((cur.length - r.bufPos : Nat) : Int)
                 idx := r.idx + 1, bufPos := 0 }
        (data.take n ++ cur.drop r.bufPos ++ data.drop (n + (cur.length - r.bufPos)))
        remaining (n + (cur.length - r.bufPos)) f
        (by simp [hb]) (by simp [hi]) (Or.inl rfl)
        (by simp only [Nat.sub_zero]; omega)
        (by
          rw [List.length_append, hlen1, List.length_drop]
          simp only [Nat.sub_zero]
          omega)
        (by simp only [List.length_cons] at hfuel; omega)
    refine ⟨r1, ?_, h2, ?_, h4⟩
    · rw [ReadLoop]
      simp only [hcur, hl, Int.toNat_ofNat, hdrop]
      rw [if_neg (by omega), if_pos (by show r.bufPos + (cur.length - r.bufPos) ≥ cur.length; omega)]
      rw [h1]
      simp only [Nat.sub_zero, List.drop_zero]
      have e1 : List.take (n + (cur.length - r.bufPos))
          (data.take n ++ cur.drop r.bufPos ++ data.drop (n + (cur.length - r.bufPos))) =
          data.take n ++ cur.drop r.bufPos := List.take_left' hlen1
      have e2 : List.drop (n + (cur.length - r.bufPos) + totalLen rest)
          (data.take n ++ cur.drop r.bufPos ++ data.drop (n + (cur.length - r.bufPos))) =
          data.drop (n + (cur.length + totalLen rest - r.bufPos)) := by
        rw [← hlen1, List.drop_append, List.drop_drop, hlen1]
        congr 1
        omega
      have e3 : (cur :: rest).flatten.drop r.bufPos = cur.drop r.bufPos ++ rest.flatten := by
        rw [List.flatten_cons, List.drop_append_of_le_length hle]
      rw [e1, e2, e3]
      have e4 : n + (cur.length - r.bufPos) + totalLen rest =
          n + (cur.length + totalLen rest - r.bufPos) := by omega
      rw [e4, List.append_assoc (data.take n), totalLen_cons]
    · exact h3

/-- Method `Read` on a located reader with a destination that has room for
everything that is left: it returns all that is left. -/
theorem Read_located (rest pre : List (List Byte)) (r : MultiReader) (data : List Byte)
    (len fuel : Nat) (hb : r.buffers = pre ++ rest) (hi : r.idx = pre.length)
    (hbp : r.bufPos = 0 ∨ ∃ cur rest2, rest = cur :: rest2 ∧ r.bufPos < cur.length)
    (hlen : totalLen rest - r.bufPos ≤ len) (hcap : len ≤ data.length)
    (hfuel : rest.length + 1 ≤ fuel) :
    ∃ r2 eof, Read fuel r data len =
        ReadResult.ok r2
          (rest.flatten.drop r.bufPos ++ data.drop (totalLen rest - r.bufPos))
          (totalLen rest - r.bufPos) eof ∧
      r2.buffers = r.buffers ∧ r2.idx = r.buffers.length := by
  unfold Read
  by_cases hend : r.idx ≥ r.buffers.length
  · rw [if_pos hend]
    have hrest : rest = [] := by
      rw [hb, hi, List.length_append] at hend
      exact List.eq_nil_of_length_eq_zero (by omega)
    subst hrest
    refine ⟨r, true, ?_, rfl, ?_⟩
    · simp [totalLen_nil]
    · rw [hb, hi]
      simp
  · rw [if_neg hend]
    obtain ⟨r1, h1, h2, h3, _⟩ :=
      ReadLoop_spec rest pre r data len 0 fuel hb hi hbp hlen (by omega) hfuel
    refine ⟨r1, false, ?_, h2, by rw [h3]⟩
    rw [h1]
    simp

/-- Claim C14: after `NewMultiReader(slices)` and `Seek(o, SeekStart)`, a `Read`
into a destination of length at least `L` returns exactly the bytes of the
concatenation `D` from `min (max o 0) L` on; a `Read` on a fresh reader returns
all of `D`. -/
theorem Seek_then_Read (slices : List (List Byte)) (o : Int) (data : List Byte)
    (len fuelS fuelR : Nat) (htot : totalLen slices < 2 ^ 63)
    (hlo : -2 ^ 63 ≤ o) (hhi : o < 2 ^ 63)
    (hlen : slices.flatten.length ≤ len) (hcap : len ≤ data.length)
    (hfS : slices.length + 2 ≤ fuelS) (hfR : slices.length + 1 ≤ fuelR) :
    (∃ r1 r2 eof,
      Seek fuelS (NewMultiReader slices) o 0 =
        SeekResult.ok r1 (min (max o 0) (slices.flatten.length : Int)) ∧
      Read fuelR r1 data len =
        ReadResult.ok r2
          (slices.flatten.drop (min (max o 0) (slices.flatten.length : Int)).toNat ++
            data.drop (slices.flatten.length -
              (min (max o 0) (slices.flatten.length : Int)).toNat))
          (slices.flatten.length - (min (max o 0) (slices.flatten.length : Int)).toNat) eof) ∧
    (∃ r2 eof, Read fuelR (NewMultiReader slices) data len =
      ReadResult.ok r2 (slices.flatten ++ data.drop slices.flatten.length)
        slices.flatten.length eof) := by
  have hL := totalLen_eq_length_flatten slices
  constructor
  · obtain ⟨r1, pre1, rest1, g1, _, g3, _, g5, g6, g7, g8⟩ :=
      Seek_located fuelS (NewMultiReader slices) o 0 o (NewMultiReader_size slices htot) htot
        hfS (by simp) hlo hhi
    have hb : slices = pre1 ++ rest1 := g5
    have hsplit : totalLen slices = totalLen pre1 + totalLen rest1 := by
      rw [hb, totalLen_append]
    have hrl : rest1.length ≤ slices.length := by
      rw [hb, List.length_append]
      omega
    have hbuf : (NewMultiReader slices).buffers = slices := rfl
    rw [hbuf, hL] at g1 g7
    have hstart : (min (max o 0) (slices.flatten.length : Int)).toNat =
        totalLen pre1 + r1.bufPos := by omega
    obtain ⟨r2, eof, h1, _⟩ :=
      Read_located rest1 pre1 r1 data len fuelR (by rw [g3]; exact g5) g6 g8 (by omega) hcap
        (by omega)
    refine ⟨r1, r2, eof, g1, ?_⟩
    rw [h1, hstart]
    have hd : slices.flatten.drop (totalLen pre1 + r1.bufPos) = rest1.flatten.drop r1.bufPos := by
      rw [hb, List.flatten_append, totalLen_eq_length_flatten pre1, List.drop_append]
    have hn : slices.flatten.length - (totalLen pre1 + r1.bufPos) =
        totalLen rest1 - r1.bufPos := by omega
    rw [hd, hn]
  · obtain ⟨r2, eof, h1, _⟩ :=
      Read_located slices [] (NewMultiReader slices) data len fuelR rfl rfl (Or.inl rfl)
        (by show totalLen slices - 0 ≤ len; omega) hcap hfR
    refine ⟨r2, eof, ?_⟩
    rw [h1]
    show ReadResult.ok r2 (slices.flatten.drop 0 ++ data.drop (totalLen slices - 0))
      (totalLen slices - 0) eof = _
    simp only [List.drop_zero, Nat.sub_zero, hL]

/-- Witness of C14: `["ab", "cde", "f"]` reads as `abcdef`; after `Seek(4)` the
read yields `ef`; after `Seek(10)` it yields no bytes. -/
theorem Seek_then_Read_witness :
    (∃ r2 eof, Read 4 (NewMultiReader abcdef) (List.replicate 6 0) 6 =
      ReadResult.ok r2 ([97, 98, 99, 100, 101, 102] ++ []) 6 eof) ∧
    (∃ r1 r2 eof, Seek 5 (NewMultiReader abcdef) 4 0 = SeekResult.ok r1 4 ∧
      Read 4 r1 (List.replicate 6 0) 6 = ReadResult.ok r2 ([101, 102] ++ [0, 0, 0, 0]) 2 eof) ∧
    (∃ r1 r2 eof, Seek 5 (NewMultiReader abcdef) 10 0 = SeekResult.ok r1 6 ∧
      Read 4 r1 (List.replicate 6 0) 6 =
        ReadResult.ok r2 ([] ++ [0, 0, 0, 0, 0, 0]) 0 eof) :=
  ⟨(Seek_then_Read abcdef 0 (List.replicate 6 0) 6 5 4 (by decide) (by decide) (by decide)
      (by decide) (by decide) (by decide) (by decide)).2,
   (Seek_then_Read abcdef 4 (List.replicate 6 0) 6 5 4 (by decide) (by decide) (by decide)
      (by decide) (by decide) (by decide) (by decide)).1,
   (Seek_then_Read abcdef 10 (List.replicate 6 0) 6 5 4 (by decide) (by decide) (by decide)
      (by decide) (by decide) (by decide) (by decide)).1⟩

/-! ## Stream adapter: end of stream -/

theorem ReadLoop_step (fuel : Nat) (r : MultiReader) (data : List Byte) (remaining n : Nat)
    (cur : List Byte) (hcur : r.buffers[r.idx]? = some cur) :
    ReadLoop (fuel + 1) r data remaining n = ReadResult.panic ∨
      ∃ r2 data2 n2, ReadLoop (fuel + 1) r data remaining n = ReadLoop fuel r2 data2 remaining n2 := by
  rw [ReadLoop]
  simp only [hcur]
  split_ifs
  all_goals first
    | exact Or.inl rfl
    | exact Or.inr ⟨_, _, _, rfl⟩

theorem ReadLoop_ok_idx :
    ∀ (fuel : Nat) (r : MultiReader) (data : List Byte) (remaining n : Nat) (r1 : MultiReader)
      (data1 : List Byte) (n1 : Nat) (eof : Bool),
      ReadLoop fuel r data remaining n = ReadResult.ok r1 data1 n1 eof →
      r1.idx ≥ r1.buffers.length := by
  intro fuel
  induction fuel with
  | zero =>
    intro r data remaining n r1 data1 n1 eof h
    simp [ReadLoop] at h
  | succ fuel ih =>
    intro r data remaining n r1 data1 n1 eof h
    cases hcur : r.buffers[r.idx]? with
    | none =>
      rw [ReadLoop] at h
      simp only [hcur, ReadResult.ok.injEq] at h
      rw [← h.1]
      exact List.getElem?_eq_none_iff.mp hcur
    | some cur =>
      rcases ReadLoop_step fuel r data remaining n cur hcur with hp | ⟨r2, data2, n2, hs⟩
      · rw [hp] at h
        cases h
      · rw [hs] at h
        exact ih _ _ _ _ _ _ _ _ h

theorem Read_ok_idx (fuel : Nat) (r : MultiReader) (data : List Byte) (len : Nat)
    (r1 : MultiReader) (data1 : List Byte) (n1 : Nat) (eof : Bool)
    (h : Read fuel r data len = ReadResult.ok r1 data1 n1 eof) :
    r1.idx ≥ r1.buffers.length := by
  unfold Read at h
  split at h
  · rename_i hend
    simp only [ReadResult.ok.injEq] at h
    rw [← h.1]
    exact hend
  · exact ReadLoop_ok_idx _ _ _ _ _ _ _ _ _ h

theorem Read_exhausted (fuel : Nat) (r : MultiReader) (data : List Byte) (len : Nat)
    (h : r.idx ≥ r.buffers.length) : Read fuel r data len = ReadResult.ok r data 0 true := by
  unfold Read
  rw [if_pos h]

theorem totalLen_eq_zero (bs : List (List Byte)) (h : totalLen bs = 0) :
    ∀ b, b ∈ bs → b = [] := by
  induction bs with
  | nil =>
    intro b hb
    simp at hb
  | cons c bs ih =>
    intro b hb
    rw [totalLen_cons] at h
    rcases List.mem_cons.mp hb with rfl | hb
    · exact List.eq_nil_of_length_eq_zero (by omega)
    · exact ih (by omega) b hb

theorem getLast?_append_of_ne_nil {α : Type} (pre rest : List α) (h : rest ≠ []) :
    (pre ++ rest).getLast? = some (rest.getLast h) := by
  rw [List.getLast?_append, List.getLast?_eq_getLast rest h]
  rfl

/-- Claim C16 as stated fails on lists that end with an empty slice: on
`["ab", ""]` a `Seek(2, SeekStart)` leaves the reader at position 2, the total
length, with the empty slice still to be consumed, and `Read` then returns
`n = 0` with a nil error, whatever the fuel; so does a fresh reader on `[""]`,
whose position 0 is the total length. -/
theorem Read_at_end_counterexample :
    totalLen abEmpty = 2 ∧
    Seek 4 (NewMultiReader abEmpty) 2 0 =
      SeekResult.ok { NewMultiReader abEmpty with idx := 1, pos := 2 } 2 ∧
    Read 2 { NewMultiReader abEmpty with idx := 1, pos := 2 } [] 0 =
      ReadResult.ok { NewMultiReader abEmpty with idx := 2, pos := 2 } [] 0 false ∧
    (∀ (fuel : Nat) (r2 : MultiReader) (data2 : List Byte) (n : Nat),
      Read fuel { NewMultiReader abEmpty with idx := 1, pos := 2 } [] 0 ≠
        ReadResult.ok r2 data2 n true) ∧
    (NewMultiReader [[]]).pos = (totalLen [[]] : Int) ∧
    Read 2 (NewMultiReader [[]]) [] 0 =
      ReadResult.ok { NewMultiReader [[]] with idx := 1 } [] 0 false := by
  refine ⟨by decide, by decide, by decide, ?_, by decide, by decide⟩
  intro fuel r2 data2 n h
  match fuel with
  | 0 =>
    have hr : Read 0 { NewMultiReader abEmpty with idx := 1, pos := 2 } [] 0 =
        ReadResult.outOfFuel := rfl
    rw [hr] at h
    cases h
  | 1 =>
    have hr : Read 1 { NewMultiReader abEmpty with idx := 1, pos := 2 } [] 0 =
        ReadResult.outOfFuel := rfl
    rw [hr] at h
    cases h
  | f + 2 =>
    have hr : Read (f + 2) { NewMultiReader abEmpty with idx := 1, pos := 2 } [] 0 =
        ReadResult.ok { NewMultiReader abEmpty with idx := 2, pos := 2 } [] 0 false := rfl
    rw [hr] at h
    simp at h

/-- Claim C16, amended: on a list of slices that is empty or whose last slice
is not empty, a reader brought to the total length `L` by `Seek` (from the
start, from the current position or from the end) has consumed every slice,
and `Read` returns `n = 0` with `io.EOF`, whatever the destination.  `Read`
returns `n = 0` with `io.EOF` on every reader that has consumed every slice,
and that is the state in which every `Read` that returns leaves the reader. -/
theorem Read_eof_at_end (fuel : Nat) (r : MultiReader) (offset whence t : Int)
    (hsize : r.size = (totalLen r.buffers : Int)) (htot : totalLen r.buffers < 2 ^ 63)
    (hfuel : r.buffers.length + 2 ≤ fuel)
    (ht : t = if whence = 2 then offset + (totalLen r.buffers : Int)
      else if whence = 1 then offset + r.pos else offset)
    (hlo : -2 ^ 63 ≤ t) (hhi : t < 2 ^ 63)
    (hlast : r.buffers.getLast? ≠ some [])
    (hend : (totalLen r.buffers : Int) ≤ t) :
    (∃ r1, Seek fuel r offset whence = SeekResult.ok r1 (totalLen r.buffers : Int) ∧
      r1.pos = (totalLen r.buffers : Int) ∧
      ∀ (fuelR : Nat) (data : List Byte) (len : Nat),
        Read fuelR r1 data len = ReadResult.ok r1 data 0 true) ∧
    (∀ (fuelR : Nat) (q : MultiReader) (data : List Byte) (len : Nat),
      q.idx ≥ q.buffers.length → Read fuelR q data len = ReadResult.ok q data 0 true) ∧
    (∀ (fuelR : Nat) (q : MultiReader) (data : List Byte) (len : Nat) (q1 : MultiReader)
      (data1 : List Byte) (n : Nat) (eof : Bool),
      Read fuelR q data len = ReadResult.ok q1 data1 n eof →
      q1.idx ≥ q1.buffers.length ∧
      ∀ (fuel2 : Nat) (data2 : List Byte) (len2 : Nat),
        Read fuel2 q1 data2 len2 = ReadResult.ok q1 data2 0 true) := by
  refine ⟨?_, fun fuelR q data len h => Read_exhausted fuelR q data len h, ?_⟩
  · have hmin : min (max t 0) (totalLen r.buffers : Int) = (totalLen r.buffers : Int) := by
      omega
    obtain ⟨r1, pre1, rest1, g1, g2, g3, _, g5, g6, g7, g8⟩ :=
      Seek_located fuel r offset whence t hsize htot hfuel ht hlo hhi
    rw [hmin] at g1 g2 g7
    have hsplit : totalLen r.buffers = totalLen pre1 + totalLen rest1 := by
      rw [g5, totalLen_append]
    have hN : totalLen pre1 + r1.bufPos = totalLen r.buffers := by omega
    have hbp : r1.bufPos = 0 := by
      rcases g8 with h0 | ⟨cur, rest2, hc, hlt⟩
      · exact h0
      · have hcl : cur.length ≤ totalLen rest1 := by
          rw [hc, totalLen_cons]
          exact Nat.le_add_right _ _
        omega
    have hzero : totalLen rest1 = 0 := by omega
    have hrest : rest1 = [] := by
      by_contra hne
      have hl := getLast?_append_of_ne_nil pre1 rest1 hne
      rw [← g5] at hl
      have hnil := totalLen_eq_zero rest1 hzero _ (List.getLast_mem hne)
      rw [hnil] at hl
      exact hlast hl
    have hidx : r1.idx ≥ r1.buffers.length := by
      rw [g3, g6, g5, hrest]
      simp
    exact ⟨r1, g1, g2, fun fuelR data len => Read_exhausted fuelR r1 data len hidx⟩
  · intro fuelR q data len q1 data1 n eof h
    have hidx := Read_ok_idx fuelR q data len q1 data1 n eof h
    exact ⟨hidx, fun fuel2 data2 len2 => Read_exhausted fuel2 q1 data2 len2 hidx⟩

/-- Witness of C16 (amended): on `["ab", "cde", "f"]`, `Seek(10, SeekStart)`
leaves the reader at 6 and `Read` returns `n = 0` with `io.EOF`. -/
theorem Read_eof_at_end_witness :
    ∃ r1, Seek 5 (NewMultiReader abcdef) 10 0 = SeekResult.ok r1 (totalLen abcdef : Int) ∧
      r1.pos = (totalLen abcdef : Int) ∧
      ∀ (fuelR : Nat) (data : List Byte) (len : Nat),
        Read fuelR r1 data len = ReadResult.ok r1 data 0 true :=
  (Read_eof_at_end 5 (NewMultiReader abcdef) 10 0 10 (by decide) (by decide) (by decide)
    (by decide) (by decide) (by decide) (by decide) (by decide)).1

/-! ## Committed bytes and the ceiling along a run -/

/-- Along calls made from a pool with `cur ≤ max`, whatever the environments of
the admissions, as long as every release frees no more than is committed, the
committed bytes never exceed the ceiling: a release never finds the pool over
the ceiling, and whether it broadcasts is decided by `cur + size > max` alone. -/
theorem cur_le_max_runCalls :
    ∀ (calls : List Call) (w : World), w.pool.cur ≤ w.pool.max → w.pool.cur < 2 ^ 64 →
      releasesWithinCommitted w calls = true →
      ∀ v, v ∈ runCalls w calls → v.pool.cur ≤ v.pool.max ∧ v.pool.cur < 2 ^ 64 := by
  intro calls
  induction calls with
  | nil =>
    intro w _ _ _ v hv
    simp [runCalls] at hv
  | cons c cs ih =>
    intro w hle hlt hrel v hv
    unfold runCalls at hv
    unfold releasesWithinCommitted at hrel
    cases hrun : runCall w c with
    | none => simp [hrun] at hv
    | some w1 =>
      simp only [hrun, List.mem_cons] at hv
      simp only [hrun, Bool.and_eq_true] at hrel
      have h1 : w1.pool.cur ≤ w1.pool.max ∧ w1.pool.cur < 2 ^ 64 := by
        cases c with
        | use fuel env inode size dirty =>
          obtain ⟨tr, hu⟩ := runCall_use_some hrun
          obtain ⟨q, hq, rfl⟩ := (Use_returned_iff fuel env inode size dirty w w1 tr).mp hu
          have hfit := UseAdmit_returned fuel env inode size w q tr hq
          have hf := UseCommit_fields q.pool size dirty
          show (UseCommit q.pool size dirty).cur ≤ (UseCommit q.pool size dirty).max ∧
            (UseCommit q.pool size dirty).cur < 2 ^ 64
          rw [hf.1, hf.2.2.2.2.1]
          exact ⟨hfit, add64_lt _ _⟩
        | free size dirty =>
          simp only [runCall, Free, Option.some.injEq] at hrun
          have hs : size ≤ w.pool.cur := by simpa using hrel.1
          rw [← hrun]
          show (FreeUnlocked w.pool size dirty).1.cur ≤ (FreeUnlocked w.pool size dirty).1.max ∧
            (FreeUnlocked w.pool size dirty).1.cur < 2 ^ 64
          rw [FreeUnlocked_cur, sub64_of_le hs hlt]
          have hm : (FreeUnlocked w.pool size dirty).1.max = w.pool.max := by
            unfold FreeUnlocked
            cases dirty <;> rfl
          rw [hm]
          omega
        | freeUnlocked size dirty =>
          simp only [runCall, Option.some.injEq] at hrun
          have hs : size ≤ w.pool.cur := by simpa using hrel.1
          rw [← hrun]
          show (FreeUnlocked w.pool size dirty).1.cur ≤ (FreeUnlocked w.pool size dirty).1.max ∧
            (FreeUnlocked w.pool size dirty).1.cur < 2 ^ 64
          rw [FreeUnlocked_cur, sub64_of_le hs hlt]
          have hm : (FreeUnlocked w.pool size dirty).1.max = w.pool.max := by
            unfold FreeUnlocked
            cases dirty <;> rfl
          rw [hm]
          omega
      rcases hv with rfl | hv
      · exact h1
      · exact ih w1 h1.1 h1.2 hrel.2 v hv

end BufferPoolModel
